import Mathlib

/-!
Mountains: height-field generation and surface-voxel extraction.

A shallow embedding of `generateTerrain` from `src/main.cpp` (lines 83-132).

* The height map `std::vector<std::vector<int>> heightMap` of size
  `TERRAIN_SIZE x TERRAIN_SIZE` is a function from the two indices to `Int`;
  only indices below `TERRAIN_SIZE` are ever read.
* `TERRAIN_SIZE` is a parameter `T : Nat` (the source fixes it to 64).
* `cubes` is the list of pushed positions, in push order.  The positions are
  `glm::vec3` built from `int` arguments; they are kept as integers, which the
  conversion to `float` represents exactly below `2^24`.
* The loop counter `y` is an `Int`; the embedding covers the runs in which
  `y++` does not overflow, that is every height below `2^31 - 1`.
* The floating-point part (lines 94-112) is written once over an arbitrary
  number type with the primitives `sqrt` and the cast to `int` as parameters.
  It is instantiated with exact real arithmetic (`realOps`) where a claim asks
  for it, and with rounded arithmetic (`roundedOps`): every operation, literal
  and conversion is the exact one followed by the rounding of the format.  For
  `float` the rounding is `round32`, IEEE binary32 to nearest, ties to even;
  overflow to infinity does not occur on the values of this program and is not
  modelled.
-/

set_option autoImplicit false

namespace Mountains

/-! ## Data model -/

/-- The position of one cube: `struct Cube { glm::vec3 position; }`. -/
structure Cube where
  x : Int
  y : Int
  z : Int
deriving DecidableEq, Repr

/-- The table `heightMap[x][z]`. -/
abbrev HeightMap := Nat → Nat → Int

/-! ## Height-field generation (lines 92-112) -/

/-- The two floating-point primitives of the generator that are not field
operations: `sqrt` (line 101) and the cast `(int)height` (line 110). -/
structure FloatOps (α : Type) where
  sqrt : α → α
  toInt : α → Int

section Generator

variable {α : Type} [Add α] [Sub α] [Mul α] [Div α] [IntCast α] [OfScientific α]

/-- The normalized coordinate of lines 97-98, the same expression for `nx`
and `nz`: `(x - TERRAIN_SIZE/2) / (float)TERRAIN_SIZE`. -/
def normCoord (T : Nat) (x : Nat) : α :=
  (((x : Int) - (T : Int).tdiv 2 : Int) : α) / ((T : Int) : α)

/-- The value `distFromCenter` of line 101. -/
def distFromCenter (ops : FloatOps α) (T x z : Nat) : α :=
  let nx : α := normCoord T x
  let nz : α := normCoord T z
  ops.sqrt (nx * nx + nz * nz) * 1.4

/-- The value `noiseValue` of line 104: `noise.GetNoise(x * 3.0f, z * 3.0f)`. -/
def noiseValue (noise : α → α → α) (x z : Nat) : α :=
  noise (((x : Int) : α) * 3.0) (((z : Int) : α) * 3.0)

/-- The float `height` after lines 104-108, for the noise function `noise`
standing for `noise.GetNoise`. -/
def height (ops : FloatOps α) (noise : α → α → α) (T x z : Nat) : α :=
  let noiseValue := noise (((x : Int) : α) * 3.0) (((z : Int) : α) * 3.0)
  let height := (noiseValue + 1.0) * 30.0
  height * (1.0 - distFromCenter ops T x z)

/-- The table filled by the loops of lines 94-112:
`heightMap[x][z] = std::max(0, (int)height)`. -/
def generateHeightMap (ops : FloatOps α) (noise : α → α → α) (T : Nat) : HeightMap :=
  fun x z => max 0 (ops.toInt (height ops noise T x z))

end Generator

/-- Exact real arithmetic: the real square root, and the cast to `int` as
truncation toward zero. -/
noncomputable def realOps : FloatOps ℝ where
  sqrt := Real.sqrt
  toInt := fun r => if 0 ≤ r then ⌊r⌋ else ⌈r⌉

/-! ## Surface voxel extraction (lines 114-131) -/

/-- The expression `isSurface` of lines 120-124. -/
def isSurface (T : Nat) (heightMap : HeightMap) (x z : Nat) (y : Int) : Bool :=
  (y == heightMap x z) ||
  (decide (x > 0) && decide (y ≥ heightMap (x - 1) z)) ||
  (decide ((x : Int) < (T : Int) - 1) && decide (y ≥ heightMap (x + 1) z)) ||
  (decide (z > 0) && decide (y ≥ heightMap x (z - 1))) ||
  (decide ((z : Int) < (T : Int) - 1) && decide (y ≥ heightMap x (z + 1)))

/-- The values taken by `y` in `for (int y = 0; y <= height; y++)`. -/
def layers (height : Int) : List Int :=
  (List.range (height + 1).toNat).map Int.ofNat

/-- The position pushed at line 127: `(x - TERRAIN_SIZE/2, y, z - TERRAIN_SIZE/2)`. -/
def cubeAt (T : Nat) (x z : Nat) (y : Int) : Cube :=
  ⟨(x : Int) - (T : Int).tdiv 2, y, (z : Int) - (T : Int).tdiv 2⟩

/-- One iteration of the innermost loop body (lines 119-128). -/
def layerStep (T : Nat) (heightMap : HeightMap) (x z : Nat) (cubes : List Cube) (y : Int) :
    List Cube :=
  if isSurface T heightMap x z y then cubes ++ [cubeAt T x z y] else cubes

/-- The body of the `z` loop (lines 117-129): the whole column `(x, z)`. -/
def columnLoop (T : Nat) (heightMap : HeightMap) (x : Nat) (cubes : List Cube) (z : Nat) :
    List Cube :=
  (layers (heightMap x z)).foldl (layerStep T heightMap x z) cubes

/-- The body of the `x` loop (lines 116-130). -/
def rowLoop (T : Nat) (heightMap : HeightMap) (cubes : List Cube) (x : Nat) : List Cube :=
  (List.range T).foldl (columnLoop T heightMap x) cubes

/-- The extraction loops of `generateTerrain` (lines 115-131), started on the
empty vector `cubes`. -/
def extractCubes (T : Nat) (heightMap : HeightMap) : List Cube :=
  (List.range T).foldl (rowLoop T heightMap) []

/-! ### Closed forms used in the proofs -/

/-- The cubes pushed for the column `(x, z)`, in push order. -/
def columnCubes (T : Nat) (heightMap : HeightMap) (x z : Nat) : List Cube :=
  ((layers (heightMap x z)).filter (isSurface T heightMap x z)).map (cubeAt T x z)

/-- The cubes of a collection that stand on the column `(x, z)`. -/
def cubesOfColumn (T : Nat) (cubes : List Cube) (x z : Nat) : List Cube :=
  cubes.filter (fun c => decide (c.x = (cubeAt T x z 0).x ∧ c.z = (cubeAt T x z 0).z))

/-- The least height among the column `(x, z)` and its existing cardinal
neighbours (specification side, used for the contiguous-segment property). -/
def minAround (T : Nat) (heightMap : HeightMap) (x z : Nat) : Int :=
  let m0 := heightMap x z
  let m1 := if x > 0 then min m0 (heightMap (x - 1) z) else m0
  let m2 := if (x : Int) < (T : Int) - 1 then min m1 (heightMap (x + 1) z) else m1
  let m3 := if z > 0 then min m2 (heightMap x (z - 1)) else m2
  if (z : Int) < (T : Int) - 1 then min m3 (heightMap x (z + 1)) else m3

/-- The whole of `generateTerrain`: the height map, then the cubes. -/
def generateTerrain {α : Type} [Add α] [Sub α] [Mul α] [Div α] [IntCast α] [OfScientific α]
    (ops : FloatOps α) (noise : α → α → α) (T : Nat) : List Cube :=
  extractCubes T (generateHeightMap ops noise T)

/-- The outermost ring of columns: `x` or `z` equal to `0` or `T - 1`
(specification side). -/
def ringColumns (T : Nat) : List (Nat × Nat) :=
  ((List.range T).product (List.range T)).filter
    (fun p => decide (p.1 = 0 ∨ p.1 = T - 1 ∨ p.2 = 0 ∨ p.2 = T - 1))

/-- The centre 3x3 block of columns, around the column `(T/2, T/2)` whose
normalized coordinates are zero (specification side). -/
def centreColumns (T : Nat) : List (Nat × Nat) :=
  [T / 2 - 1, T / 2, T / 2 + 1].product [T / 2 - 1, T / 2, T / 2 + 1]

/-- The mean of the heights over a list of columns (specification side). -/
def meanHeight (hm : HeightMap) (cols : List (Nat × Nat)) : ℚ :=
  (((cols.map (fun p => hm p.1 p.2)).sum : Int) : ℚ) / ((cols.length : Nat) : ℚ)

/-! ### Test fixtures -/

/-- A 3x3 field: centre height `c`, the eight other columns height `o`. -/
def ringField (c o : Int) : HeightMap :=
  fun x z => if x = 1 ∧ z = 1 then c else o

/-- The flat field of height 0. -/
def flatField : HeightMap := fun _ _ => 0

/-! ## Rounded arithmetic -/

/-- A number of a floating-point format with rounding `rnd`, given by its real
value. -/
structure Rounded (rnd : ℝ → ℝ) where
  val : ℝ

/-- Addition of the format: the exact sum, rounded. -/
noncomputable instance (rnd : ℝ → ℝ) : Add (Rounded rnd) := ⟨fun a b => ⟨rnd (a.val + b.val)⟩⟩

/-- Subtraction of the format: the exact difference, rounded. -/
noncomputable instance (rnd : ℝ → ℝ) : Sub (Rounded rnd) := ⟨fun a b => ⟨rnd (a.val - b.val)⟩⟩

/-- Multiplication of the format: the exact product, rounded. -/
noncomputable instance (rnd : ℝ → ℝ) : Mul (Rounded rnd) := ⟨fun a b => ⟨rnd (a.val * b.val)⟩⟩

/-- Division of the format: the exact quotient, rounded. -/
noncomputable instance (rnd : ℝ → ℝ) : Div (Rounded rnd) := ⟨fun a b => ⟨rnd (a.val / b.val)⟩⟩

/-- Conversion of an `int`, as in `(float)TERRAIN_SIZE`: the integer, rounded. -/
noncomputable instance (rnd : ℝ → ℝ) : IntCast (Rounded rnd) := ⟨fun n => ⟨rnd (n : ℝ)⟩⟩

/-- A literal such as `1.4f`: the decimal value, rounded. -/
noncomputable instance (rnd : ℝ → ℝ) : OfScientific (Rounded rnd) :=
  ⟨fun m s e => ⟨rnd (OfScientific.ofScientific m s e : ℝ)⟩⟩

/-- Rounded arithmetic: the square root rounded, and the cast to `int` as
truncation toward zero. -/
noncomputable def roundedOps (rnd : ℝ → ℝ) : FloatOps (Rounded rnd) where
  sqrt := fun a => ⟨rnd (Real.sqrt a.val)⟩
  toInt := fun a => if 0 ≤ a.val then ⌊a.val⌋ else ⌈a.val⌉

/-- What the proofs use of a rounding: it is monotone, keeps `0` and `1`, and
has relative error at most `2^-24` on `[2^-100, 2^100]`. -/
structure IsRounding (rnd : ℝ → ℝ) : Prop where
  mono : Monotone rnd
  zero : rnd 0 = 0
  one : rnd 1 = 1
  rel : ∀ x : ℝ, 1 / 2 ^ 100 ≤ |x| → |x| ≤ 2 ^ 100 → |rnd x - x| ≤ |x| / 2 ^ 24

/-- Rounding to the nearest integer, ties to the even one. -/
noncomputable def roundEven (y : ℝ) : Int :=
  if y - ⌊y⌋ < 1 / 2 then ⌊y⌋
  else if 1 / 2 < y - ⌊y⌋ then ⌊y⌋ + 1
  else if Even ⌊y⌋ then ⌊y⌋ else ⌊y⌋ + 1

/-- The exponent of the binade of `x ≥ 0` in binary32, at least `-126`. -/
noncomputable def binade (x : ℝ) : Int := max (Int.log 2 x) (-126)

/-- Rounding of `x ≥ 0` to binary32: 24 significant bits. -/
noncomputable def round32Pos (x : ℝ) : ℝ :=
  (roundEven (x / 2 ^ (binade x - 23)) : ℝ) * 2 ^ (binade x - 23)

/-- Rounding to binary32, to nearest, ties to even. -/
noncomputable def round32 (x : ℝ) : ℝ :=
  if 0 ≤ x then round32Pos x else -round32Pos (-x)

/-- A noise function with values in `[-1, 1]` that is `-1` at the sample points
`3 * x` of the centre block of the 8x8 grid and `1` at those of its ring. -/
noncomputable def borderNoise (rnd : ℝ → ℝ) : Rounded rnd → Rounded rnd → Rounded rnd :=
  fun p q => if 3 ≤ p.val ∧ p.val ≤ 18 ∧ 3 ≤ q.val ∧ q.val ≤ 18 then ⟨-1⟩ else ⟨1⟩

end Mountains

namespace Mountains

/-! ## The loops in closed form -/

theorem foldl_push_eq {α β : Type} (f : α → List β) (step : List β → α → List β)
    (hstep : ∀ acc a, step acc a = acc ++ f a) (l : List α) (init : List β) :
    l.foldl step init = init ++ l.flatMap f := by
  induction l generalizing init with
  | nil => simp
  | cons a l ih => simp [List.foldl_cons, hstep, ih, List.flatMap_cons, List.append_assoc]

theorem columnLoop_eq (T : Nat) (hm : HeightMap) (x z : Nat) (cubes : List Cube) :
    columnLoop T hm x cubes z = cubes ++ columnCubes T hm x z := by
  unfold columnLoop columnCubes
  rw [foldl_push_eq (fun y => if isSurface T hm x z y then [cubeAt T x z y] else [])]
  · congr 1
    induction layers (hm x z) with
    | nil => rfl
    | cons y l ih =>
      by_cases h : isSurface T hm x z y <;> simp [List.flatMap_cons, List.filter_cons, h, ih]
  · intro acc y
    unfold layerStep
    by_cases h : isSurface T hm x z y <;> simp [h]

theorem rowLoop_eq (T : Nat) (hm : HeightMap) (x : Nat) (cubes : List Cube) :
    rowLoop T hm cubes x = cubes ++ (List.range T).flatMap (columnCubes T hm x) := by
  unfold rowLoop
  exact foldl_push_eq _ _ (fun acc z => columnLoop_eq T hm x z acc) _ _

theorem extractCubes_eq (T : Nat) (hm : HeightMap) :
    extractCubes T hm
      = (List.range T).flatMap (fun x => (List.range T).flatMap (columnCubes T hm x)) := by
  unfold extractCubes
  rw [foldl_push_eq _ _ (fun acc x => rowLoop_eq T hm x acc)]
  simp

theorem mem_layers (h y : Int) : y ∈ layers h ↔ 0 ≤ y ∧ y ≤ h := by
  unfold layers
  simp only [List.mem_map, List.mem_range]
  constructor
  · rintro ⟨n, hn, rfl⟩
    simp only [Int.ofNat_eq_coe]
    omega
  · rintro ⟨h0, h1⟩
    exact ⟨y.toNat, by omega, by simp [Int.toNat_of_nonneg h0]⟩

theorem mem_columnCubes (T : Nat) (hm : HeightMap) (x z : Nat) (c : Cube) :
    c ∈ columnCubes T hm x z
      ↔ ∃ y : Int, 0 ≤ y ∧ y ≤ hm x z ∧ isSurface T hm x z y = true ∧ c = cubeAt T x z y := by
  unfold columnCubes
  simp only [List.mem_map, List.mem_filter, mem_layers]
  constructor
  · rintro ⟨y, ⟨⟨h0, h1⟩, hs⟩, rfl⟩
    exact ⟨y, h0, h1, hs, rfl⟩
  · rintro ⟨y, h0, h1, hs, rfl⟩
    exact ⟨y, ⟨⟨h0, h1⟩, hs⟩, rfl⟩

theorem mem_extractCubes (T : Nat) (hm : HeightMap) (c : Cube) :
    c ∈ extractCubes T hm
      ↔ ∃ x z : Nat, x < T ∧ z < T ∧ ∃ y : Int, 0 ≤ y ∧ y ≤ hm x z ∧
          isSurface T hm x z y = true ∧ c = cubeAt T x z y := by
  rw [extractCubes_eq]
  simp only [List.mem_flatMap, List.mem_range, mem_columnCubes]
  constructor
  · rintro ⟨x, hx, z, hz, h⟩
    exact ⟨x, z, hx, hz, h⟩
  · rintro ⟨x, z, hx, hz, h⟩
    exact ⟨x, hx, z, hz, h⟩

theorem cubeAt_inj (T : Nat) (x z x1 z1 : Nat) (y y1 : Int)
    (h : cubeAt T x z y = cubeAt T x1 z1 y1) : x = x1 ∧ z = z1 ∧ y = y1 := by
  unfold cubeAt at h
  injection h with h1 h2 h3
  omega

theorem isSurface_iff (T : Nat) (hm : HeightMap) (x z : Nat) (y : Int) :
    isSurface T hm x z y = true
      ↔ (y = hm x z ∨ (x > 0 ∧ y ≥ hm (x - 1) z) ∨ ((x : Int) < (T : Int) - 1 ∧ y ≥ hm (x + 1) z)
          ∨ (z > 0 ∧ y ≥ hm x (z - 1)) ∨ ((z : Int) < (T : Int) - 1 ∧ y ≥ hm x (z + 1))) := by
  unfold isSurface
  simp only [Bool.or_eq_true, Bool.and_eq_true, decide_eq_true_eq, beq_iff_eq]
  tauto

theorem flatMap_range_single {β : Type} (g : Nat → List β) (k T : Nat) (hk : k < T)
    (hg : ∀ i, i < T → i ≠ k → g i = []) : (List.range T).flatMap g = g k := by
  induction T with
  | zero => omega
  | succ n ih =>
    rw [List.range_succ, List.flatMap_append]
    by_cases hkn : k = n
    · subst hkn
      have h0 : (List.range k).flatMap g = [] := by
        rw [List.flatMap_eq_nil_iff]
        intro i hi
        rw [List.mem_range] at hi
        exact hg i (by omega) (by omega)
      simp [h0]
    · have h1 : g n = [] := hg n (by omega) (fun h => hkn h.symm)
      rw [ih (by omega) (fun i hi hne => hg i (by omega) hne)]
      simp [h1]

theorem filter_columnCubes (T : Nat) (hm : HeightMap) (x z x1 z1 : Nat) :
    cubesOfColumn T (columnCubes T hm x1 z1) x z
      = if x1 = x ∧ z1 = z then columnCubes T hm x z else [] := by
  unfold cubesOfColumn
  split_ifs with h
  · obtain ⟨rfl, rfl⟩ := h
    rw [List.filter_eq_self]
    intro c hc
    rw [mem_columnCubes] at hc
    obtain ⟨y, -, -, -, rfl⟩ := hc
    simp [cubeAt]
  · rw [List.filter_eq_nil_iff]
    intro c hc
    rw [mem_columnCubes] at hc
    obtain ⟨y, -, -, -, rfl⟩ := hc
    simp only [cubeAt, decide_eq_true_eq]
    omega

theorem cubesOfColumn_extractCubes (T : Nat) (hm : HeightMap) (x z : Nat)
    (hx : x < T) (hz : z < T) :
    cubesOfColumn T (extractCubes T hm) x z = columnCubes T hm x z := by
  have hrow : ∀ x1, cubesOfColumn T ((List.range T).flatMap (columnCubes T hm x1)) x z
      = if x1 = x then columnCubes T hm x z else [] := by
    intro x1
    unfold cubesOfColumn
    rw [List.filter_flatMap]
    rw [flatMap_range_single _ z T hz]
    · have := filter_columnCubes T hm x z x1 z
      unfold cubesOfColumn at this
      rw [this]
      simp
    · intro i _ hne
      have := filter_columnCubes T hm x z x1 i
      unfold cubesOfColumn at this
      rw [this]
      simp [hne]
  rw [extractCubes_eq]
  have hall : cubesOfColumn T ((List.range T).flatMap
      (fun x1 => (List.range T).flatMap (columnCubes T hm x1))) x z
      = (List.range T).flatMap
          (fun x1 => cubesOfColumn T ((List.range T).flatMap (columnCubes T hm x1)) x z) := by
    unfold cubesOfColumn
    rw [List.filter_flatMap]
  rw [hall, flatMap_range_single _ x T hx]
  · rw [hrow]; simp
  · intro i _ hne
    rw [hrow]; simp [hne]

theorem isSurface_iff_minAround (T : Nat) (hm : HeightMap) (x z : Nat) (y : Int)
    (hy : y ≤ hm x z) : isSurface T hm x z y = true ↔ minAround T hm x z ≤ y := by
  rw [isSurface_iff]
  unfold minAround
  simp only
  split_ifs <;> omega

theorem filter_layers_ge (h m : Int) (hm0 : 0 ≤ m) :
    (layers h).filter (fun y => decide (m ≤ y))
      = (List.range (h - m + 1).toNat).map (fun i : Nat => m + (i : Int)) := by
  have hs1 : ((layers h).filter (fun y => decide (m ≤ y))).Sorted (· < ·) := by
    apply List.Pairwise.filter
    unfold layers
    exact (List.pairwise_lt_range _).map _ (fun a b hab => by simp only [Int.ofNat_eq_coe]; omega)
  have hs2 : ((List.range (h - m + 1).toNat).map (fun i : Nat => m + (i : Int))).Sorted (· < ·) :=
    (List.pairwise_lt_range _).map _ (fun a b hab => by omega)
  refine List.eq_of_perm_of_sorted ?_ hs1 hs2
  rw [List.perm_ext_iff_of_nodup hs1.nodup hs2.nodup]
  intro y
  simp only [List.mem_filter, mem_layers, decide_eq_true_eq, List.mem_map, List.mem_range]
  constructor
  · rintro ⟨⟨h0, h1⟩, h2⟩
    exact ⟨(y - m).toNat, by omega, by omega⟩
  · rintro ⟨i, hi, rfl⟩
    omega

/-! ## Properties of the extraction -/

/-- C1 (surface extraction rule): for a grid column `(x, z)` and a layer `y`
with `0 ≤ y ≤ heightMap[x][z]`, the placement `(x - T/2, y, z - T/2)` is pushed
if and only if `y` is the top of the column or `y` reaches the height of an
existing west, east, south or north neighbour.  No assumption on the other
entries of the height field is needed. -/
theorem surface_extraction_rule (T : Nat) (hm : HeightMap) (x z : Nat) (y : Int)
    (hx : x < T) (hz : z < T) (h0 : 0 ≤ y) (h1 : y ≤ hm x z) :
    cubeAt T x z y ∈ extractCubes T hm
      ↔ (y = hm x z ∨ (x > 0 ∧ y ≥ hm (x - 1) z)
          ∨ ((x : Int) < (T : Int) - 1 ∧ y ≥ hm (x + 1) z)
          ∨ (z > 0 ∧ y ≥ hm x (z - 1))
          ∨ ((z : Int) < (T : Int) - 1 ∧ y ≥ hm x (z + 1))) := by
  rw [← isSurface_iff, mem_extractCubes]
  constructor
  · rintro ⟨x1, z1, -, -, y1, -, -, hs, heq⟩
    obtain ⟨rfl, rfl, rfl⟩ := cubeAt_inj T x z x1 z1 y y1 heq
    exact hs
  · intro hs
    exact ⟨x, z, hx, hz, y, h0, h1, hs, rfl⟩

/-- Instance of C1 on the 3x3 field with centre height 2 and rim height 1, at
the centre column and layer 1. -/
theorem surface_extraction_rule_witness :
    (1 < 3 ∧ (0 : Int) ≤ 1 ∧ (1 : Int) ≤ ringField 2 1 1 1)
    ∧ (cubeAt 3 1 1 1 ∈ extractCubes 3 (ringField 2 1)
      ↔ ((1 : Int) = ringField 2 1 1 1 ∨ (1 > 0 ∧ (1 : Int) ≥ ringField 2 1 (1 - 1) 1)
          ∨ (((1 : Nat) : Int) < ((3 : Nat) : Int) - 1 ∧ (1 : Int) ≥ ringField 2 1 (1 + 1) 1)
          ∨ (1 > 0 ∧ (1 : Int) ≥ ringField 2 1 1 (1 - 1))
          ∨ (((1 : Nat) : Int) < ((3 : Nat) : Int) - 1 ∧ (1 : Int) ≥ ringField 2 1 1 (1 + 1)))) :=
  ⟨by decide,
   surface_extraction_rule 3 (ringField 2 1) 1 1 1 (by decide) (by decide) (by decide)
     (by decide)⟩

/-- C2 (completeness): a solid voxel `(x, y, z)`, `0 ≤ y ≤ heightMap[x][z]`,
that is the top of its column or has an existing cardinal neighbour column of
height below `y` is in the extracted collection. -/
theorem extraction_complete (T : Nat) (hm : HeightMap) (x z : Nat) (y : Int)
    (hx : x < T) (hz : z < T) (h0 : 0 ≤ y) (h1 : y ≤ hm x z)
    (hair : y = hm x z ∨ (x > 0 ∧ hm (x - 1) z < y) ∨ (x + 1 < T ∧ hm (x + 1) z < y)
          ∨ (z > 0 ∧ hm x (z - 1) < y) ∨ (z + 1 < T ∧ hm x (z + 1) < y)) :
    cubeAt T x z y ∈ extractCubes T hm := by
  rw [mem_extractCubes]
  refine ⟨x, z, hx, hz, y, h0, h1, ?_, rfl⟩
  rw [isSurface_iff]
  omega

/-- Instance of C2: in the 3x3 field with centre height 2 and rim height 0 the
centre voxel of layer 1 has open air on its west side. -/
theorem extraction_complete_witness :
    ((1 : Int) = ringField 2 0 1 1 ∨ (1 > 0 ∧ ringField 2 0 (1 - 1) 1 < 1)
      ∨ (1 + 1 < 3 ∧ ringField 2 0 (1 + 1) 1 < 1)
      ∨ (1 > 0 ∧ ringField 2 0 1 (1 - 1) < 1) ∨ (1 + 1 < 3 ∧ ringField 2 0 1 (1 + 1) < 1))
    ∧ cubeAt 3 1 1 1 ∈ extractCubes 3 (ringField 2 0) :=
  ⟨by decide,
   extraction_complete 3 (ringField 2 0) 1 1 1 (by decide) (by decide) (by decide) (by decide)
     (by decide)⟩

/-- C3 (interior culling): a column `(x, z)` of non-negative height all of
whose existing cardinal neighbours are at least as tall contributes exactly one
placement to the extracted collection, its topmost voxel. -/
theorem interior_culling (T : Nat) (hm : HeightMap) (x z : Nat)
    (hx : x < T) (hz : z < T) (hnn : 0 ≤ hm x z)
    (hw : x > 0 → hm x z ≤ hm (x - 1) z) (he : x + 1 < T → hm x z ≤ hm (x + 1) z)
    (hs : z > 0 → hm x z ≤ hm x (z - 1)) (hn : z + 1 < T → hm x z ≤ hm x (z + 1)) :
    cubesOfColumn T (extractCubes T hm) x z = [cubeAt T x z (hm x z)] := by
  rw [cubesOfColumn_extractCubes T hm x z hx hz]
  unfold columnCubes
  have hf : (layers (hm x z)).filter (isSurface T hm x z)
      = (layers (hm x z)).filter (fun y => decide (hm x z ≤ y)) := by
    apply List.filter_congr
    intro y hy
    rw [mem_layers] at hy
    rw [Bool.eq_iff_iff, isSurface_iff, decide_eq_true_eq]
    omega
  rw [hf, filter_layers_ge _ _ hnn]
  simp [List.range_succ]

/-- C3 fixture: 3x3 grid, centre height 1, the eight other columns height 5;
the centre column yields exactly one placement, its top `(0, 1, 0)`. -/
theorem interior_culling_witness :
    ((0 : Int) ≤ ringField 1 5 1 1 ∧ ringField 1 5 1 1 ≤ ringField 1 5 0 1
        ∧ ringField 1 5 1 1 ≤ ringField 1 5 2 1 ∧ ringField 1 5 1 1 ≤ ringField 1 5 1 0
        ∧ ringField 1 5 1 1 ≤ ringField 1 5 1 2)
      ∧ cubesOfColumn 3 (extractCubes 3 (ringField 1 5)) 1 1 = [⟨0, 1, 0⟩]
      ∧ (cubesOfColumn 3 (extractCubes 3 (ringField 1 5)) 1 1).length = 1 :=
  have h := interior_culling 3 (ringField 1 5) 1 1 (by decide) (by decide) (by decide)
    (by decide) (by decide) (by decide) (by decide)
  ⟨by decide, h, by rw [h]; rfl⟩

/-- C4 (top voxel always present): for every grid column `(x, z)` of
non-negative height the placement `(x - T/2, heightMap[x][z], z - T/2)` is in
the extracted collection, whatever the neighbours and the grid size. -/
theorem top_voxel_present (T : Nat) (hm : HeightMap) (x z : Nat)
    (hx : x < T) (hz : z < T) (hnn : 0 ≤ hm x z) :
    cubeAt T x z (hm x z) ∈ extractCubes T hm := by
  rw [mem_extractCubes]
  refine ⟨x, z, hx, hz, hm x z, hnn, le_refl _, ?_, rfl⟩
  rw [isSurface_iff]
  exact Or.inl rfl

/-- C4 fixture: the flat 2x2 field of height 0 yields the top voxel of all four
columns. -/
theorem top_voxel_present_witness :
    (∀ i j : Nat, (0 : Int) ≤ flatField i j)
      ∧ (⟨-1, 0, -1⟩ : Cube) ∈ extractCubes 2 flatField
      ∧ (⟨-1, 0, 0⟩ : Cube) ∈ extractCubes 2 flatField
      ∧ (⟨0, 0, -1⟩ : Cube) ∈ extractCubes 2 flatField
      ∧ (⟨0, 0, 0⟩ : Cube) ∈ extractCubes 2 flatField :=
  ⟨fun _ _ => le_refl _,
   top_voxel_present 2 flatField 0 0 (by decide) (by decide) (by decide),
   top_voxel_present 2 flatField 0 1 (by decide) (by decide) (by decide),
   top_voxel_present 2 flatField 1 0 (by decide) (by decide) (by decide),
   top_voxel_present 2 flatField 1 1 (by decide) (by decide) (by decide)⟩

/-- C6 (placement soundness): every placement `(wx, y, wz)` of the extracted
collection has `-(T/2) ≤ wx < T - T/2`, `-(T/2) ≤ wz < T - T/2` and
`0 ≤ y ≤ heightMap[wx + T/2][wz + T/2]`, and it is a solid voxel of exactly one
grid column. -/
theorem placement_sound (T : Nat) (hm : HeightMap) (c : Cube) (hc : c ∈ extractCubes T hm) :
    (-((T : Int).tdiv 2) ≤ c.x ∧ c.x < (T : Int) - (T : Int).tdiv 2)
      ∧ (-((T : Int).tdiv 2) ≤ c.z ∧ c.z < (T : Int) - (T : Int).tdiv 2)
      ∧ (0 ≤ c.y ∧ c.y ≤ hm (c.x + (T : Int).tdiv 2).toNat (c.z + (T : Int).tdiv 2).toNat)
      ∧ ∃! p : Nat × Nat, p.1 < T ∧ p.2 < T ∧ c = cubeAt T p.1 p.2 c.y ∧ c.y ≤ hm p.1 p.2 := by
  rw [mem_extractCubes] at hc
  obtain ⟨x, z, hx, hz, y, h0, h1, -, rfl⟩ := hc
  have e1 : ((x : Int) - (T : Int).tdiv 2 + (T : Int).tdiv 2).toNat = x := by omega
  have e2 : ((z : Int) - (T : Int).tdiv 2 + (T : Int).tdiv 2).toNat = z := by omega
  refine ⟨?_, ?_, ?_, ?_⟩
  · simp only [cubeAt]; omega
  · simp only [cubeAt]; omega
  · simp only [cubeAt, e1, e2]; exact ⟨h0, h1⟩
  · refine ⟨(x, z), ⟨hx, hz, rfl, h1⟩, ?_⟩
    rintro ⟨x1, z1⟩ ⟨-, -, heq, -⟩
    obtain ⟨rfl, rfl, -⟩ := cubeAt_inj T x z x1 z1 _ _ heq
    rfl

/-- Instance of C6 at the placement `(0, 1, 0)` of the 3x3 field with centre
height 2 and rim height 1. -/
theorem placement_sound_witness :
    (⟨0, 1, 0⟩ : Cube) ∈ extractCubes 3 (ringField 2 1)
      ∧ (-(((3 : Nat) : Int).tdiv 2) ≤ (0 : Int) ∧ (0 : Int) < ((3 : Nat) : Int) - ((3 : Nat) : Int).tdiv 2)
      ∧ (0 ≤ (1 : Int) ∧ (1 : Int) ≤ ringField 2 1 1 1) :=
  have h := placement_sound 3 (ringField 2 1) ⟨0, 1, 0⟩ (by decide)
  ⟨by decide, h.1, h.2.2.1⟩

/-- C8 (conservatism of the neighbour rule): there is a height field and a
voxel strictly below the top of its column, with all four cardinal neighbour
columns present and solid at its layer, that is nevertheless extracted: the
3x3 grid with centre height 2 and rim height 1, centre voxel at `y = 1`. -/
theorem enclosed_voxel_extracted :
    ∃ (T : Nat) (hm : HeightMap) (x z : Nat) (y : Int),
      (∀ i j, i < T → j < T → 0 ≤ hm i j)
      ∧ x < T ∧ z < T ∧ 0 ≤ y ∧ y < hm x z
      ∧ (x > 0 ∧ y ≤ hm (x - 1) z) ∧ (x + 1 < T ∧ y ≤ hm (x + 1) z)
      ∧ (z > 0 ∧ y ≤ hm x (z - 1)) ∧ (z + 1 < T ∧ y ≤ hm x (z + 1))
      ∧ cubeAt T x z y ∈ extractCubes T hm := by
  refine ⟨3, ringField 2 1, 1, 1, 1, ?_, by decide, by decide, by decide, by decide,
    by decide, by decide, by decide, by decide, by decide⟩
  intro i j _ _
  unfold ringField
  split_ifs <;> decide

/-- C10 (contiguous top segment): for a grid column `(x, z)` of height `h`
whose own and existing neighbours' heights are non-negative, with `m` the least
of these heights, the placements of the column in the extracted collection are
those of the layers `m, m + 1, ..., h`, each once and in this order; a layer
`y` is extracted exactly when `m ≤ y ≤ h`; the column contributes `h - m + 1`
placements, a number between `1` and `h + 1`. -/
theorem column_contiguous_segment (T : Nat) (hm : HeightMap) (x z : Nat)
    (hx : x < T) (hz : z < T) (hnn : ∀ i j, i < T → j < T → 0 ≤ hm i j) :
    cubesOfColumn T (extractCubes T hm) x z
        = (List.range (hm x z - minAround T hm x z + 1).toNat).map
            (fun i : Nat => cubeAt T x z (minAround T hm x z + (i : Int)))
      ∧ (∀ y : Int, cubeAt T x z y ∈ extractCubes T hm
            ↔ minAround T hm x z ≤ y ∧ y ≤ hm x z)
      ∧ ((cubesOfColumn T (extractCubes T hm) x z).length : Int)
            = hm x z - minAround T hm x z + 1
      ∧ 1 ≤ ((cubesOfColumn T (extractCubes T hm) x z).length : Int)
      ∧ ((cubesOfColumn T (extractCubes T hm) x z).length : Int) ≤ hm x z + 1 := by
  have hm0 : 0 ≤ minAround T hm x z := by
    have a0 := hnn x z hx hz
    have a1 : x > 0 → 0 ≤ hm (x - 1) z := fun h => hnn _ _ (by omega) hz
    have a2 : (x : Int) < (T : Int) - 1 → 0 ≤ hm (x + 1) z := fun h => hnn _ _ (by omega) hz
    have a3 : z > 0 → 0 ≤ hm x (z - 1) := fun h => hnn _ _ hx (by omega)
    have a4 : (z : Int) < (T : Int) - 1 → 0 ≤ hm x (z + 1) := fun h => hnn _ _ hx (by omega)
    unfold minAround
    simp only
    split_ifs <;> omega
  have hmh : minAround T hm x z ≤ hm x z := by
    unfold minAround
    simp only
    split_ifs <;> omega
  have hlist : cubesOfColumn T (extractCubes T hm) x z
      = (List.range (hm x z - minAround T hm x z + 1).toNat).map
          (fun i : Nat => cubeAt T x z (minAround T hm x z + (i : Int))) := by
    rw [cubesOfColumn_extractCubes T hm x z hx hz]
    unfold columnCubes
    have hf : (layers (hm x z)).filter (isSurface T hm x z)
        = (layers (hm x z)).filter (fun y => decide (minAround T hm x z ≤ y)) := by
      apply List.filter_congr
      intro y hy
      rw [mem_layers] at hy
      rw [Bool.eq_iff_iff, isSurface_iff_minAround T hm x z y hy.2, decide_eq_true_eq]
    rw [hf, filter_layers_ge _ _ hm0, List.map_map]
    rfl
  have hlen : ((cubesOfColumn T (extractCubes T hm) x z).length : Int)
      = hm x z - minAround T hm x z + 1 := by
    rw [hlist, List.length_map, List.length_range]
    omega
  refine ⟨hlist, ?_, hlen, by omega, by omega⟩
  intro y
  rw [mem_extractCubes]
  constructor
  · rintro ⟨x1, z1, -, -, y1, -, h1, hs, heq⟩
    obtain ⟨rfl, rfl, rfl⟩ := cubeAt_inj T x z x1 z1 y y1 heq
    exact ⟨(isSurface_iff_minAround T hm x z y h1).1 hs, h1⟩
  · rintro ⟨h2, h1⟩
    exact ⟨x, z, hx, hz, y, by omega, h1,
      (isSurface_iff_minAround T hm x z y h1).2 h2, rfl⟩

/-- Instance of C10 on the 3x3 field with centre height 2 and rim height 1:
the centre column contributes the layers 1 and 2. -/
theorem column_contiguous_segment_witness :
    (∀ i j, i < 3 → j < 3 → 0 ≤ ringField 2 1 i j)
      ∧ minAround 3 (ringField 2 1) 1 1 = 1
      ∧ cubesOfColumn 3 (extractCubes 3 (ringField 2 1)) 1 1 = [⟨0, 1, 0⟩, ⟨0, 2, 0⟩]
      ∧ ((cubesOfColumn 3 (extractCubes 3 (ringField 2 1)) 1 1).length : Int)
          = ringField 2 1 1 1 - minAround 3 (ringField 2 1) 1 1 + 1 :=
  have hnn : ∀ i j, i < 3 → j < 3 → 0 ≤ ringField 2 1 i j := by
    intro i j _ _
    unfold ringField
    split_ifs <;> decide
  have h := column_contiguous_segment 3 (ringField 2 1) 1 1 (by decide) (by decide) hnn
  ⟨hnn, by decide, by rw [h.1]; decide, h.2.2.1⟩

/-! ## The generator in exact real arithmetic -/

theorem normCoord_eq (T x : Nat) :
    ∃ a : Int, a = (x : Int) - ((T / 2 : Nat) : Int)
      ∧ (normCoord T x : ℝ) = (a : ℝ) / (T : ℝ) := by
  refine ⟨(x : Int) - ((T / 2 : Nat) : Int), rfl, ?_⟩
  unfold normCoord
  rw [Int.ofNat_tdiv]
  simp

theorem sq_div_le (a : Int) (T : Nat) (p q : Nat) (hT : 0 < T) (hq : 0 < q)
    (h1 : -((p : Int) * T) ≤ q * a) (h2 : (q : Int) * a ≤ p * T) :
    (a : ℝ) / T * ((a : ℝ) / T) ≤ ((p : ℝ) / q) * ((p : ℝ) / q) := by
  have hT' : (0 : ℝ) < T := by exact_mod_cast hT
  have hq' : (0 : ℝ) < q := by exact_mod_cast hq
  have h1' : -((p : ℝ) * T) ≤ q * a := by exact_mod_cast h1
  have h2' : (q : ℝ) * a ≤ p * T := by exact_mod_cast h2
  rw [div_mul_div_comm, div_mul_div_comm, div_le_div_iff₀ (by positivity) (by positivity)]
  nlinarith [mul_nonneg (sub_nonneg.2 h2') (sub_nonneg.2 (neg_le_iff_add_nonneg.1 h1'))]

theorem normCoord_sq_le (T x : Nat) (hx : x < T) :
    (normCoord T x : ℝ) * normCoord T x ≤ 1 / 4 := by
  obtain ⟨a, ha, hn⟩ := normCoord_eq T x
  rw [hn]
  have := sq_div_le a T 1 2 (by omega) (by omega) (by push_cast; omega) (by push_cast; omega)
  norm_num at this ⊢
  linarith

theorem distFromCenter_le (T x z : Nat) (hx : x < T) (hz : z < T) :
    distFromCenter realOps T x z ≤ 99 / 100 := by
  have h1 := normCoord_sq_le T x hx
  have h2 := normCoord_sq_le T z hz
  have hs : Real.sqrt ((normCoord T x : ℝ) * normCoord T x + normCoord T z * normCoord T z)
      ≤ 99 / 140 := by
    rw [Real.sqrt_le_left (by norm_num)]
    norm_num
    linarith
  show Real.sqrt _ * 1.4 ≤ 99 / 100
  norm_num
  linarith

/-! ## The generator in rounded arithmetic -/

variable {rnd : ℝ → ℝ}

theorem meanHeight_le (hm : HeightMap) (cols : List (Nat × Nat)) (B : Int) (hne : cols ≠ [])
    (h : ∀ p ∈ cols, hm p.1 p.2 ≤ B) : meanHeight hm cols ≤ B := by
  unfold meanHeight
  have hlen : (0 : ℚ) < (cols.length : ℚ) := by
    exact_mod_cast List.length_pos.2 hne
  rw [div_le_iff₀ hlen]
  have hs : (cols.map (fun p => hm p.1 p.2)).sum ≤ (cols.map (fun p => hm p.1 p.2)).length • B :=
    List.sum_le_card_nsmul _ _ (by
      intro v hv
      rw [List.mem_map] at hv
      obtain ⟨p, hp, rfl⟩ := hv
      exact h p hp)
  rw [List.length_map, nsmul_eq_mul] at hs
  have hq : (((cols.map (fun p => hm p.1 p.2)).sum : Int) : ℚ)
      ≤ (((cols.length : Int) * B : Int) : ℚ) := Int.cast_le.2 hs
  rw [Int.cast_mul, Int.cast_natCast] at hq
  linarith

theorem mem_ringColumns (T : Nat) (p : Nat × Nat) :
    p ∈ ringColumns T
      ↔ (p.1 < T ∧ p.2 < T) ∧ (p.1 = 0 ∨ p.1 = T - 1 ∨ p.2 = 0 ∨ p.2 = T - 1) := by
  unfold ringColumns
  obtain ⟨a, b⟩ := p
  simp [List.mem_filter, List.pair_mem_product, List.mem_range]

theorem mem_centreColumns (T : Nat) (p : Nat × Nat) (hp : p ∈ centreColumns T) :
    (p.1 = T / 2 - 1 ∨ p.1 = T / 2 ∨ p.1 = T / 2 + 1)
      ∧ (p.2 = T / 2 - 1 ∨ p.2 = T / 2 ∨ p.2 = T / 2 + 1) := by
  unfold centreColumns at hp
  obtain ⟨a, b⟩ := p
  rw [List.pair_mem_product] at hp
  simpa using hp



theorem normCoord_val (T x : Nat) :
    (normCoord T x : Rounded rnd).val
      = rnd (rnd ((((x : Int) - ((T / 2 : Nat) : Int) : Int) : ℝ)) / rnd (T : ℝ)) := by
  unfold normCoord
  rw [Int.ofNat_tdiv]
  show rnd (rnd _ / rnd (((T : Int) : ℝ))) = _
  rw [Int.cast_natCast]
  rfl

theorem distFromCenter_val (T x z : Nat) :
    (distFromCenter (roundedOps rnd) T x z).val
      = rnd (rnd (Real.sqrt (rnd (rnd ((normCoord T x : Rounded rnd).val * (normCoord T x : Rounded rnd).val)
           + rnd ((normCoord T z : Rounded rnd).val * (normCoord T z : Rounded rnd).val)))) * rnd 1.4) := rfl

theorem height_val (noise : Rounded rnd → Rounded rnd → Rounded rnd) (T x z : Nat) :
    (height (roundedOps rnd) noise T x z).val
      = rnd (rnd (rnd ((noise (((x : Int) : Rounded rnd) * 3.0) (((z : Int) : Rounded rnd) * 3.0)).val
            + rnd 1.0) * rnd 30.0)
          * rnd (rnd 1.0 - (distFromCenter (roundedOps rnd) T x z).val)) := rfl


theorem rnd_nonneg (hr : IsRounding rnd) {x : ℝ} (h : 0 ≤ x) : 0 ≤ rnd x := by
  have := hr.mono h
  rwa [hr.zero] at this

theorem rnd_nonpos (hr : IsRounding rnd) {x : ℝ} (h : x ≤ 0) : rnd x ≤ 0 := by
  have := hr.mono h
  rwa [hr.zero] at this

theorem rnd_near (hr : IsRounding rnd) {c : ℝ} (h0 : 1 / 2 ^ 100 ≤ c) (h1 : c ≤ 2 ^ 100) :
    c - c / 2 ^ 24 ≤ rnd c ∧ rnd c ≤ c + c / 2 ^ 24 := by
  have hc : 0 ≤ c := le_trans (by positivity) h0
  have := hr.rel c (by rwa [abs_of_nonneg hc]) (by rwa [abs_of_nonneg hc])
  rw [abs_of_nonneg hc, abs_le] at this
  constructor <;> linarith

theorem rnd_near_neg (hr : IsRounding rnd) {c : ℝ} (h0 : 1 / 2 ^ 100 ≤ c)
    (h1 : c ≤ 2 ^ 100) :
    -c - c / 2 ^ 24 ≤ rnd (-c) ∧ rnd (-c) ≤ -c + c / 2 ^ 24 := by
  have hc : 0 ≤ c := le_trans (by positivity) h0
  have := hr.rel (-c) (by rwa [abs_neg, abs_of_nonneg hc]) (by rwa [abs_neg, abs_of_nonneg hc])
  rw [abs_neg, abs_of_nonneg hc, abs_le] at this
  constructor <;> linarith

theorem rnd_le_of_le (hr : IsRounding rnd) {x c : ℝ} (h0 : 1 / 2 ^ 100 ≤ c)
    (h1 : c ≤ 2 ^ 100) (h : x ≤ c) : rnd x ≤ c + c / 2 ^ 24 :=
  le_trans (hr.mono h) (rnd_near hr h0 h1).2

theorem rnd_ge_of_ge (hr : IsRounding rnd) {x c : ℝ} (h0 : 1 / 2 ^ 100 ≤ c)
    (h1 : c ≤ 2 ^ 100) (h : c ≤ x) : c - c / 2 ^ 24 ≤ rnd x :=
  le_trans (rnd_near hr h0 h1).1 (hr.mono h)

theorem rnd_abs_le (hr : IsRounding rnd) {x c : ℝ} (h0 : 1 / 2 ^ 100 ≤ c)
    (h1 : c ≤ 2 ^ 100) (h : |x| ≤ c) : |rnd x| ≤ c + c / 2 ^ 24 := by
  rw [abs_le] at h ⊢
  have hc : 0 ≤ c := le_trans (by positivity) h0
  constructor
  · have := le_trans (rnd_near_neg hr h0 h1).1 (hr.mono h.1)
    linarith
  · exact rnd_le_of_le hr h0 h1 h.2

theorem rnd_le_abs (hr : IsRounding rnd) {x c : ℝ} (h0 : 1 / 2 ^ 100 ≤ c)
    (h1 : c ≤ 2 ^ 100) (h : c ≤ |x|) : c - c / 2 ^ 24 ≤ |rnd x| := by
  have hc : 0 ≤ c := le_trans (by positivity) h0
  rcases le_abs.1 h with h | h
  · exact le_trans (rnd_ge_of_ge hr h0 h1 h) (le_abs_self _)
  · have h2 : x ≤ -c := by linarith
    have := le_trans (hr.mono h2) (rnd_near_neg hr h0 h1).2
    have h3 := neg_le_abs (rnd x)
    linarith


theorem rnd_natCast_bounds (hr : IsRounding rnd) (T : Nat) (hT : 8 ≤ T) (hT2 : T < 2 ^ 31) :
    (T : ℝ) - T / 2 ^ 24 ≤ rnd T ∧ rnd (T : ℝ) ≤ T + T / 2 ^ 24 ∧ (8 : ℝ) ≤ T := by
  have h8 : (8 : ℝ) ≤ T := by exact_mod_cast hT
  have h31 : (T : ℝ) ≤ 2 ^ 31 := by exact_mod_cast hT2.le
  have := rnd_near hr (le_trans (by norm_num) h8 : (1 : ℝ) / 2 ^ 100 ≤ T)
    (le_trans h31 (by norm_num))
  exact ⟨this.1, this.2, h8⟩

theorem normCoord_ring (hr : IsRounding rnd) (T x : Nat) (hT : 8 ≤ T) (hT2 : T < 2 ^ 31)
    (hx : x = 0 ∨ x = T - 1) :
    374 / 1000 ≤ |(normCoord T x : Rounded rnd).val| := by
  rw [normCoord_val]
  obtain ⟨hB1, hB2, h8⟩ := rnd_natCast_bounds hr T hT hT2
  set a : Int := (x : Int) - ((T / 2 : Nat) : Int) with ha
  have hcase : 3 * (T : Int) ≤ 8 * a ∨ 8 * a ≤ -(3 * (T : Int)) := by omega
  have hTa : 3 * (T : ℝ) ≤ 8 * |(a : ℝ)| := by
    rcases hcase with h | h
    · have h' : 3 * (T : ℝ) ≤ 8 * (a : ℝ) := by exact_mod_cast h
      have := le_abs_self (a : ℝ)
      linarith
    · have h' : 8 * (a : ℝ) ≤ -(3 * (T : ℝ)) := by exact_mod_cast h
      have := neg_le_abs (a : ℝ)
      linarith
  have ha2 : |(a : ℝ)| ≤ 2 ^ 31 := by
    have h1 : -(2 ^ 31 : Int) ≤ a := by omega
    have h2 : a ≤ (2 ^ 31 : Int) := by omega
    rw [abs_le]
    constructor
    · exact_mod_cast h1
    · exact_mod_cast h2
  have hrel := hr.rel (a : ℝ) (by linarith) (le_trans ha2 (by norm_num))
  have hA : |(a : ℝ)| - |(a : ℝ)| / 2 ^ 24 ≤ |rnd (a : ℝ)| := by
    have h1 := abs_sub_abs_le_abs_sub (a : ℝ) (rnd (a : ℝ))
    rw [abs_sub_comm] at h1
    linarith
  have hB : (0 : ℝ) < rnd (T : ℝ) := by
    have : (0 : ℝ) < (T : ℝ) - T / 2 ^ 24 := by linarith
    linarith
  have hq : (37499 : ℝ) / 100000 ≤ |rnd (a : ℝ) / rnd (T : ℝ)| := by
    rw [abs_div, abs_of_pos hB, le_div_iff₀ hB]
    linarith
  have := rnd_le_abs hr (by norm_num) (by norm_num) hq
  refine le_trans ?_ this
  norm_num

theorem normCoord_centre (hr : IsRounding rnd) (T x : Nat) (hT : 8 ≤ T) (hT2 : T < 2 ^ 31)
    (hx : x = T / 2 - 1 ∨ x = T / 2 ∨ x = T / 2 + 1) :
    |(normCoord T x : Rounded rnd).val| ≤ 1251 / 10000 := by
  rw [normCoord_val]
  obtain ⟨hB1, hB2, h8⟩ := rnd_natCast_bounds hr T hT hT2
  set a : Int := (x : Int) - ((T / 2 : Nat) : Int) with ha
  have h1 : -1 ≤ a := by omega
  have h2 : a ≤ 1 := by omega
  have ha1 : |(a : ℝ)| ≤ 1 := by
    rw [abs_le]
    constructor
    · exact_mod_cast h1
    · exact_mod_cast h2
  have hA := rnd_abs_le hr (by norm_num) (by norm_num) ha1
  have hB : (0 : ℝ) < rnd (T : ℝ) := by
    have : (0 : ℝ) < (T : ℝ) - T / 2 ^ 24 := by linarith
    linarith
  have hq : |rnd (a : ℝ) / rnd (T : ℝ)| ≤ (12501 : ℝ) / 100000 := by
    rw [abs_div, abs_of_pos hB, div_le_iff₀ hB]
    linarith
  have := rnd_abs_le hr (by norm_num) (by norm_num) hq
  refine le_trans this ?_
  norm_num

theorem normCoord_centre_column (hr : IsRounding rnd) (T : Nat) :
    (normCoord T (T / 2) : Rounded rnd).val = 0 := by
  rw [normCoord_val]
  simp [hr.zero]


theorem rnd_lit_bounds (hr : IsRounding rnd) :
    (13999 : ℝ) / 10000 ≤ rnd 1.4 ∧ rnd 1.4 ≤ (14001 : ℝ) / 10000 := by
  have := rnd_near hr (by norm_num : (1 : ℝ) / 2 ^ 100 ≤ 1.4) (by norm_num)
  constructor
  · refine le_trans ?_ this.1; norm_num
  · refine le_trans this.2 ?_; norm_num

theorem dist_nonneg (hr : IsRounding rnd) (u v : ℝ) :
    0 ≤ rnd (rnd (Real.sqrt (rnd (rnd (u * u) + rnd (v * v)))) * rnd 1.4) := by
  apply rnd_nonneg hr
  apply mul_nonneg
  · exact rnd_nonneg hr (Real.sqrt_nonneg _)
  · have := (rnd_lit_bounds hr).1
    linarith

theorem dist_ge (hr : IsRounding rnd) (u v : ℝ) (h : 374 / 1000 ≤ |u| ∨ 374 / 1000 ≤ |v|) :
    52 / 100 ≤ rnd (rnd (Real.sqrt (rnd (rnd (u * u) + rnd (v * v)))) * rnd 1.4) := by
  have hsq : ∀ w : ℝ, 374 / 1000 ≤ |w| → (1398 : ℝ) / 10000 ≤ rnd (w * w) := by
    intro w hw
    have h1 : (13987 : ℝ) / 100000 ≤ w * w := by
      rw [← abs_mul_abs_self w]
      nlinarith
    refine le_trans ?_ (rnd_ge_of_ge hr (by norm_num) (by norm_num) h1)
    norm_num
  have hnn : ∀ w : ℝ, 0 ≤ rnd (w * w) := fun w => rnd_nonneg hr (mul_self_nonneg w)
  have hsum : (1398 : ℝ) / 10000 ≤ rnd (u * u) + rnd (v * v) := by
    rcases h with h | h
    · have := hsq u h; have := hnn v; linarith
    · have := hsq v h; have := hnn u; linarith
  have hS : (13979 : ℝ) / 100000 ≤ rnd (rnd (u * u) + rnd (v * v)) := by
    refine le_trans ?_ (rnd_ge_of_ge hr (by norm_num) (by norm_num) hsum)
    norm_num
  have hsqrt : (3738 : ℝ) / 10000 ≤ Real.sqrt (rnd (rnd (u * u) + rnd (v * v))) := by
    rw [Real.le_sqrt' (by norm_num)]
    refine le_trans ?_ hS
    norm_num
  have hq : (37379 : ℝ) / 100000 ≤ rnd (Real.sqrt (rnd (rnd (u * u) + rnd (v * v)))) := by
    refine le_trans ?_ (rnd_ge_of_ge hr (by norm_num) (by norm_num) hsqrt)
    norm_num
  have hl := (rnd_lit_bounds hr).1
  have hp : (5232 : ℝ) / 10000
      ≤ rnd (Real.sqrt (rnd (rnd (u * u) + rnd (v * v)))) * rnd 1.4 := by
    nlinarith
  refine le_trans ?_ (rnd_ge_of_ge hr (by norm_num) (by norm_num) hp)
  norm_num

theorem dist_le (hr : IsRounding rnd) (u v : ℝ) (hu : |u| ≤ 1251 / 10000)
    (hv : |v| ≤ 1251 / 10000) :
    rnd (rnd (Real.sqrt (rnd (rnd (u * u) + rnd (v * v)))) * rnd 1.4) ≤ 1 / 4 := by
  have hsq : ∀ w : ℝ, |w| ≤ 1251 / 10000 → rnd (w * w) ≤ (15651 : ℝ) / 1000000 := by
    intro w hw
    have h1 : w * w ≤ (1565001 : ℝ) / 100000000 := by
      rw [← abs_mul_abs_self w]
      nlinarith [abs_nonneg w]
    refine le_trans (rnd_le_of_le hr (by norm_num) (by norm_num) h1) ?_
    norm_num
  have hsum : rnd (u * u) + rnd (v * v) ≤ (31302 : ℝ) / 1000000 := by
    have := hsq u hu; have := hsq v hv; linarith
  have hS : rnd (rnd (u * u) + rnd (v * v)) ≤ (31303 : ℝ) / 1000000 := by
    refine le_trans (rnd_le_of_le hr (by norm_num) (by norm_num) hsum) ?_
    norm_num
  have hsqrt : Real.sqrt (rnd (rnd (u * u) + rnd (v * v))) ≤ (17693 : ℝ) / 100000 := by
    rw [Real.sqrt_le_left (by norm_num)]
    refine le_trans hS ?_
    norm_num
  have hq : rnd (Real.sqrt (rnd (rnd (u * u) + rnd (v * v)))) ≤ (176931 : ℝ) / 1000000 := by
    refine le_trans (rnd_le_of_le hr (by norm_num) (by norm_num) hsqrt) ?_
    norm_num
  have hq0 : 0 ≤ rnd (Real.sqrt (rnd (rnd (u * u) + rnd (v * v)))) :=
    rnd_nonneg hr (Real.sqrt_nonneg _)
  have hl := rnd_lit_bounds hr
  have hp : rnd (Real.sqrt (rnd (rnd (u * u) + rnd (v * v)))) * rnd 1.4 ≤ (2478 : ℝ) / 10000 := by
    nlinarith
  refine le_trans (rnd_le_of_le hr (by norm_num) (by norm_num) hp) ?_
  norm_num

theorem dist_zero (hr : IsRounding rnd) :
    rnd (rnd (Real.sqrt (rnd (rnd ((0 : ℝ) * 0) + rnd ((0 : ℝ) * 0)))) * rnd 1.4) = 0 := by
  simp [hr.zero]


theorem rnd_one_lit (hr : IsRounding rnd) : rnd 1.0 = 1 := by
  have : (1.0 : ℝ) = 1 := by norm_num
  rw [this, hr.one]

theorem rnd_thirty_bounds (hr : IsRounding rnd) :
    (2999 : ℝ) / 100 ≤ rnd 30.0 ∧ rnd 30.0 ≤ (3001 : ℝ) / 100 := by
  have := rnd_near hr (by norm_num : (1 : ℝ) / 2 ^ 100 ≤ 30.0) (by norm_num)
  constructor
  · refine le_trans ?_ this.1; norm_num
  · refine le_trans this.2 ?_; norm_num

theorem scaled_noise_bounds (hr : IsRounding rnd) (n : ℝ) (h0 : -1 ≤ n) (h1 : n ≤ 1) :
    0 ≤ rnd (rnd (n + rnd 1.0) * rnd 30.0) ∧ rnd (rnd (n + rnd 1.0) * rnd 30.0) ≤ 61 := by
  rw [rnd_one_lit hr]
  have hb0 : 0 ≤ rnd (n + 1) := rnd_nonneg hr (by linarith)
  have hb1 : rnd (n + 1) ≤ (201 : ℝ) / 100 := by
    refine le_trans (rnd_le_of_le hr (by norm_num) (by norm_num) (by linarith : n + 1 ≤ 2)) ?_
    norm_num
  have h30 := rnd_thirty_bounds hr
  constructor
  · exact rnd_nonneg hr (mul_nonneg hb0 (by linarith))
  · have : rnd (n + 1) * rnd 30.0 ≤ (605 : ℝ) / 10 := by nlinarith
    refine le_trans (rnd_le_of_le hr (by norm_num) (by norm_num) this) ?_
    norm_num

theorem scaled_noise_mono (hr : IsRounding rnd) (n1 n2 : ℝ) (h : n1 ≤ n2) :
    rnd (rnd (n1 + rnd 1.0) * rnd 30.0) ≤ rnd (rnd (n2 + rnd 1.0) * rnd 30.0) := by
  apply hr.mono
  apply mul_le_mul_of_nonneg_right
  · exact hr.mono (by linarith)
  · have := (rnd_thirty_bounds hr).1
    linarith

theorem heightVal_le_heightVal (hr : IsRounding rnd) (n1 n2 d1 d2 : ℝ) (hn : n1 ≤ n2)
    (h0 : -1 ≤ n1) (h1 : n2 ≤ 1) (hd1 : 52 / 100 ≤ d1) (hd2 : d2 ≤ 1 / 4) :
    rnd (rnd (rnd (n1 + rnd 1.0) * rnd 30.0) * rnd (rnd 1.0 - d1))
      ≤ rnd (rnd (rnd (n2 + rnd 1.0) * rnd 30.0) * rnd (rnd 1.0 - d2)) := by
  apply hr.mono
  have ha := scaled_noise_mono hr n1 n2 hn
  have ha1 := (scaled_noise_bounds hr n1 h0 (le_trans hn h1)).1
  have hf : rnd (rnd 1.0 - d1) ≤ rnd (rnd 1.0 - d2) := hr.mono (by linarith)
  have hf2 : 0 ≤ rnd (rnd 1.0 - d2) := by
    apply rnd_nonneg hr
    rw [rnd_one_lit hr]
    linarith
  calc rnd (rnd (n1 + rnd 1.0) * rnd 30.0) * rnd (rnd 1.0 - d1)
      ≤ rnd (rnd (n1 + rnd 1.0) * rnd 30.0) * rnd (rnd 1.0 - d2) :=
        mul_le_mul_of_nonneg_left hf ha1
    _ ≤ rnd (rnd (n2 + rnd 1.0) * rnd 30.0) * rnd (rnd 1.0 - d2) :=
        mul_le_mul_of_nonneg_right ha hf2

theorem quantize_eq (h : ℝ) : max 0 (if 0 ≤ h then ⌊h⌋ else ⌈h⌉) = max 0 ⌊h⌋ := by
  split_ifs with h0
  · rfl
  · have h1 : h < 0 := not_le.1 h0
    have h2 : ⌈h⌉ ≤ 0 := Int.ceil_le.2 (by push_cast; linarith)
    have h3 : ⌊h⌋ < 0 := Int.floor_lt.2 (by push_cast; linarith)
    omega

theorem heightVal_ring_lt (hr : IsRounding rnd) (n1 n2 d1 : ℝ) (hn : n1 ≤ n2)
    (h0 : -1 ≤ n1) (h1 : n2 ≤ 1) (hd1 : 52 / 100 ≤ d1)
    (hc : 1 ≤ max 0 ⌊rnd (rnd (rnd (n2 + rnd 1.0) * rnd 30.0) * rnd (rnd 1.0 - 0))⌋) :
    max 0 ⌊rnd (rnd (rnd (n1 + rnd 1.0) * rnd 30.0) * rnd (rnd 1.0 - d1))⌋
      < max 0 ⌊rnd (rnd (rnd (n2 + rnd 1.0) * rnd 30.0) * rnd (rnd 1.0 - 0))⌋ := by
  have ha := scaled_noise_mono hr n1 n2 hn
  have ha1 := (scaled_noise_bounds hr n1 h0 (le_trans hn h1)).1
  have ha2 := scaled_noise_bounds hr n2 (le_trans h0 hn) h1
  have hf1 : rnd (rnd 1.0 - 0) = 1 := by
    rw [rnd_one_lit hr, sub_zero, hr.one]
  rw [hf1, mul_one] at hc ⊢
  set a1 := rnd (rnd (n1 + rnd 1.0) * rnd 30.0)
  set a2 := rnd (rnd (n2 + rnd 1.0) * rnd 30.0)
  set k := ⌊rnd a2⌋ with hk
  have hk1 : 1 ≤ k := by omega
  have hkle : (k : ℝ) ≤ rnd a2 := Int.floor_le _
  have hklt : rnd a2 < k + 1 := Int.lt_floor_add_one _
  have hk1' : (1 : ℝ) ≤ k := by exact_mod_cast hk1
  have ha2lo : (1 : ℝ) / 2 ≤ a2 := by
    by_contra hcon
    have h2 : a2 ≤ 1 / 2 := le_of_lt (not_le.1 hcon)
    have := rnd_le_of_le hr (by norm_num) (by norm_num) h2
    norm_num at this
    linarith
  have hrel := rnd_near hr (le_trans (by norm_num) ha2lo : (1 : ℝ) / 2 ^ 100 ≤ a2)
    (le_trans ha2.2 (by norm_num))
  have hf : rnd (rnd 1.0 - d1) ≤ (4801 : ℝ) / 10000 := by
    rw [rnd_one_lit hr]
    refine le_trans (rnd_le_of_le hr (by norm_num) (by norm_num)
      (by linarith : 1 - d1 ≤ (48 : ℝ) / 100)) ?_
    norm_num
  have hprod : a1 * rnd (rnd 1.0 - d1) ≤ 4801 / 10000 * a2 := by
    by_cases hfs : 0 ≤ rnd (rnd 1.0 - d1)
    · calc a1 * rnd (rnd 1.0 - d1) ≤ a2 * rnd (rnd 1.0 - d1) :=
            mul_le_mul_of_nonneg_right ha hfs
        _ ≤ a2 * (4801 / 10000) := mul_le_mul_of_nonneg_left hf ha2.1
        _ = 4801 / 10000 * a2 := by ring
    · have : a1 * rnd (rnd 1.0 - d1) ≤ 0 :=
        mul_nonpos_of_nonneg_of_nonpos ha1 (le_of_lt (not_le.1 hfs))
      linarith [ha2.1]
  have hy := rnd_le_of_le hr
    (by linarith : (1 : ℝ) / 2 ^ 100 ≤ 4801 / 10000 * a2)
    (by linarith : 4801 / 10000 * a2 ≤ (2 : ℝ) ^ 100) hprod
  have hlt : rnd (a1 * rnd (rnd 1.0 - d1)) < k := by
    norm_num at hrel hy
    linarith
  have hfl : ⌊rnd (a1 * rnd (rnd 1.0 - d1))⌋ < k := Int.floor_lt.2 hlt
  have hmax : max 0 k = k := max_eq_right (by omega)
  rw [hmax]
  exact max_lt (by omega) hfl


theorem generateHeightMap_rounded (noise : Rounded rnd → Rounded rnd → Rounded rnd)
    (T x z : Nat) :
    generateHeightMap (roundedOps rnd) noise T x z
      = max 0 ⌊rnd (rnd (rnd ((noiseValue noise x z).val + rnd 1.0) * rnd 30.0)
          * rnd (rnd 1.0 - (distFromCenter (roundedOps rnd) T x z).val))⌋ := by
  rw [← quantize_eq]
  rfl

theorem sum_gt_of_one_gt (f : Nat × Nat → Int) (l : List (Nat × Nat)) (M : Int)
    (cc : Nat × Nat) (hcc : cc ∈ l) (hall : ∀ c ∈ l, M ≤ f c) (hgt : M < f cc) :
    (l.length : Int) * M + 1 ≤ (l.map f).sum := by
  induction l with
  | nil => simp at hcc
  | cons a l ih =>
    simp only [List.map_cons, List.sum_cons, List.length_cons]
    have ha := hall a (List.mem_cons_self _ _)
    have hl : (l.length : Int) * M ≤ (l.map f).sum := by
      have := List.card_nsmul_le_sum (l.map f) M (by
        intro v hv
        rw [List.mem_map] at hv
        obtain ⟨p, hp, rfl⟩ := hv
        exact hall p (List.mem_cons_of_mem _ hp))
      rwa [List.length_map, nsmul_eq_mul] at this
    rcases List.mem_cons.1 hcc with h | h
    · subst h
      push_cast
      linarith
    · have := ih h (fun c hc => hall c (List.mem_cons_of_mem _ hc))
      push_cast
      linarith

theorem meanHeight_gt (hm : HeightMap) (l : List (Nat × Nat)) (M : Int) (cc : Nat × Nat)
    (hcc : cc ∈ l) (hall : ∀ c ∈ l, M ≤ hm c.1 c.2) (hgt : M < hm cc.1 cc.2) :
    (M : ℚ) < meanHeight hm l := by
  unfold meanHeight
  have hne : l ≠ [] := List.ne_nil_of_mem hcc
  have hlen : (0 : ℚ) < (l.length : ℚ) := by
    exact_mod_cast List.length_pos.2 hne
  rw [lt_div_iff₀ hlen]
  have hs := sum_gt_of_one_gt (fun p => hm p.1 p.2) l M cc hcc hall hgt
  have hq : (((l.length : Int) * M + 1 : Int) : ℚ)
      ≤ (((l.map (fun p => hm p.1 p.2)).sum : Int) : ℚ) := Int.cast_le.2 hs
  rw [Int.cast_add, Int.cast_mul, Int.cast_natCast, Int.cast_one] at hq
  linarith

theorem exists_max_height (hm : HeightMap) (l : List (Nat × Nat)) (hne : l ≠ []) :
    ∃ r ∈ l, ∀ p ∈ l, hm p.1 p.2 ≤ hm r.1 r.2 := by
  induction l with
  | nil => exact absurd rfl hne
  | cons a l ih =>
    by_cases hl : l = []
    · subst hl
      exact ⟨a, List.mem_cons_self _ _, fun p hp => by
        rw [List.mem_singleton] at hp
        rw [hp]⟩
    · obtain ⟨r, hr, hmax⟩ := ih hl
      by_cases hcmp : hm r.1 r.2 ≤ hm a.1 a.2
      · refine ⟨a, List.mem_cons_self _ _, fun p hp => ?_⟩
        rcases List.mem_cons.1 hp with h | h
        · rw [h]
        · exact le_trans (hmax p h) hcmp
      · refine ⟨r, List.mem_cons_of_mem _ hr, fun p hp => ?_⟩
        rcases List.mem_cons.1 hp with h | h
        · rw [h]; omega
        · exact hmax p h

theorem mean_lt_of_heights (hm : HeightMap) (ring centre : List (Nat × Nat)) (cc : Nat × Nat)
    (hne : ring ≠ []) (hcc : cc ∈ centre)
    (h1 : ∀ r ∈ ring, ∀ c ∈ centre, hm r.1 r.2 ≤ hm c.1 c.2)
    (h2 : ∀ r ∈ ring, hm r.1 r.2 < hm cc.1 cc.2) :
    meanHeight hm ring < meanHeight hm centre := by
  obtain ⟨r0, hr0, hmax⟩ := exists_max_height hm ring hne
  have ha := meanHeight_le hm ring (hm r0.1 r0.2) hne hmax
  have hb := meanHeight_gt hm centre (hm r0.1 r0.2) cc hcc (fun c hc => h1 r0 hr0 c hc)
    (h2 r0 hr0)
  exact lt_of_le_of_lt ha hb


theorem dist_ring_rounded (hr : IsRounding rnd) (T : Nat) (hT : 8 ≤ T) (hT2 : T < 2 ^ 31)
    (p : Nat × Nat) (hp : p ∈ ringColumns T) :
    52 / 100 ≤ (distFromCenter (roundedOps rnd) T p.1 p.2).val := by
  rw [mem_ringColumns] at hp
  rw [distFromCenter_val]
  apply dist_ge hr
  rcases hp.2 with h | h | h | h
  · exact Or.inl (normCoord_ring hr T p.1 hT hT2 (Or.inl h))
  · exact Or.inl (normCoord_ring hr T p.1 hT hT2 (Or.inr h))
  · exact Or.inr (normCoord_ring hr T p.2 hT hT2 (Or.inl h))
  · exact Or.inr (normCoord_ring hr T p.2 hT hT2 (Or.inr h))

theorem dist_centre_rounded (hr : IsRounding rnd) (T : Nat) (hT : 8 ≤ T) (hT2 : T < 2 ^ 31)
    (p : Nat × Nat) (hp : p ∈ centreColumns T) :
    (distFromCenter (roundedOps rnd) T p.1 p.2).val ≤ 1 / 4 := by
  obtain ⟨h1, h2⟩ := mem_centreColumns T p hp
  rw [distFromCenter_val]
  exact dist_le hr _ _ (normCoord_centre hr T p.1 hT hT2 h1) (normCoord_centre hr T p.2 hT hT2 h2)

theorem dist_centre_column (hr : IsRounding rnd) (T : Nat) :
    (distFromCenter (roundedOps rnd) T (T / 2) (T / 2)).val = 0 := by
  rw [distFromCenter_val, normCoord_centre_column hr]
  exact dist_zero hr

theorem centre_column_mem (T : Nat) : (T / 2, T / 2) ∈ centreColumns T := by
  unfold centreColumns
  rw [List.pair_mem_product]
  simp

theorem ringColumns_ne_nil (T : Nat) (hT : 1 ≤ T) : ringColumns T ≠ [] := by
  intro hnil
  have : ((0, 0) : Nat × Nat) ∈ ringColumns T := by
    rw [mem_ringColumns]; simp; omega
  rw [hnil] at this
  simp at this

/-! ### The rounding of binary32 -/

theorem roundEven_cases (y : ℝ) : roundEven y = ⌊y⌋ ∨ roundEven y = ⌊y⌋ + 1 := by
  unfold roundEven
  split_ifs <;> simp

theorem roundEven_ge_floor (y : ℝ) : ⌊y⌋ ≤ roundEven y := by
  rcases roundEven_cases y with h | h <;> omega

theorem roundEven_intCast (n : Int) : roundEven (n : ℝ) = n := by
  unfold roundEven
  simp

theorem roundEven_le_of_le_int (y : ℝ) (n : Int) (h : y ≤ n) : roundEven y ≤ n := by
  rcases eq_or_lt_of_le h with h | h
  · rw [h, roundEven_intCast]
  · have : ⌊y⌋ < n := Int.floor_lt.2 h
    rcases roundEven_cases y with h | h <;> omega

theorem roundEven_ge_of_int_le (y : ℝ) (n : Int) (h : (n : ℝ) ≤ y) : n ≤ roundEven y :=
  le_trans (Int.le_floor.2 h) (roundEven_ge_floor y)

theorem roundEven_near (y : ℝ) : |(roundEven y : ℝ) - y| ≤ 1 / 2 := by
  have h1 := Int.floor_le y
  have h2 := Int.lt_floor_add_one y
  unfold roundEven
  rw [abs_le]
  split_ifs with a b c
  · constructor <;> linarith
  · push_cast; constructor <;> linarith
  · constructor <;> linarith
  · push_cast; constructor <;> linarith

theorem roundEven_mono {y1 y2 : ℝ} (h : y1 ≤ y2) : roundEven y1 ≤ roundEven y2 := by
  have hf := Int.floor_le_floor h
  rcases lt_or_eq_of_le hf with hlt | heq
  · have := roundEven_ge_floor y2
    rcases roundEven_cases y1 with h1 | h1 <;> omega
  · unfold roundEven
    rw [← heq]
    split_ifs <;> first | omega | (exfalso; linarith)


theorem two_zpow_pos (k : Int) : (0 : ℝ) < 2 ^ k := zpow_pos (by norm_num) k

theorem binade_mono {x y : ℝ} (hx : 0 < x) (h : x ≤ y) : binade x ≤ binade y :=
  max_le_max (Int.log_mono_right hx h) (le_refl _)

theorem zpow_binade_le {x : ℝ} (hx : 0 < x) (hb : -126 < binade x) :
    (2 : ℝ) ^ binade x ≤ x := by
  have he : binade x = Int.log 2 x := by
    unfold binade at hb ⊢
    omega
  rw [he]
  have := Int.zpow_log_le_self (by norm_num : 1 < 2) hx
  simpa using this

theorem lt_zpow_binade_succ (x : ℝ) : x < (2 : ℝ) ^ (binade x + 1) := by
  have h1 := Int.lt_zpow_succ_log_self (by norm_num : 1 < 2) x
  have h2 : ((2 : ℕ) : ℝ) ^ (Int.log 2 x + 1) ≤ (2 : ℝ) ^ (binade x + 1) := by
    rw [Nat.cast_ofNat]
    apply zpow_le_zpow_right₀ (by norm_num)
    unfold binade
    omega
  exact lt_of_lt_of_le h1 h2

theorem round32Pos_nonneg {x : ℝ} (hx : 0 ≤ x) : 0 ≤ round32Pos x := by
  unfold round32Pos
  apply mul_nonneg _ (two_zpow_pos _).le
  have : (0 : Int) ≤ roundEven (x / 2 ^ (binade x - 23)) :=
    roundEven_ge_of_int_le _ 0 (by
      push_cast
      exact div_nonneg hx (two_zpow_pos _).le)
  exact_mod_cast this

theorem round32Pos_ge_zpow {x : ℝ} (hx : 0 < x) (hb : -126 < binade x) :
    (2 : ℝ) ^ binade x ≤ round32Pos x := by
  unfold round32Pos
  have h1 : ((2 ^ 23 : Int) : ℝ) ≤ x / 2 ^ (binade x - 23) := by
    rw [le_div_iff₀ (two_zpow_pos _)]
    have : ((2 ^ 23 : Int) : ℝ) * 2 ^ (binade x - 23) = 2 ^ binade x := by
      rw [zpow_sub₀ (by norm_num : (2 : ℝ) ≠ 0)]
      push_cast
      norm_num
      ring
    rw [this]
    exact zpow_binade_le hx hb
  have h2 := roundEven_ge_of_int_le _ _ h1
  have h3 : ((2 ^ 23 : Int) : ℝ) ≤ (roundEven (x / 2 ^ (binade x - 23)) : ℝ) := by
    exact_mod_cast h2
  calc (2 : ℝ) ^ binade x = ((2 ^ 23 : Int) : ℝ) * 2 ^ (binade x - 23) := by
        rw [zpow_sub₀ (by norm_num : (2 : ℝ) ≠ 0)]
        push_cast
        norm_num
        ring
    _ ≤ _ := mul_le_mul_of_nonneg_right h3 (two_zpow_pos _).le

theorem round32Pos_le_zpow (x : ℝ) : round32Pos x ≤ (2 : ℝ) ^ (binade x + 1) := by
  unfold round32Pos
  have h1 : x / 2 ^ (binade x - 23) ≤ ((2 ^ 24 : Int) : ℝ) := by
    rw [div_le_iff₀ (two_zpow_pos _)]
    have : ((2 ^ 24 : Int) : ℝ) * 2 ^ (binade x - 23) = 2 ^ (binade x + 1) := by
      rw [zpow_sub₀ (by norm_num : (2 : ℝ) ≠ 0), zpow_add₀ (by norm_num : (2 : ℝ) ≠ 0)]
      push_cast
      norm_num
      ring
    rw [this]
    exact (lt_zpow_binade_succ x).le
  have h2 := roundEven_le_of_le_int _ _ h1
  have h3 : (roundEven (x / 2 ^ (binade x - 23)) : ℝ) ≤ ((2 ^ 24 : Int) : ℝ) := by
    exact_mod_cast h2
  calc _ ≤ ((2 ^ 24 : Int) : ℝ) * 2 ^ (binade x - 23) :=
        mul_le_mul_of_nonneg_right h3 (two_zpow_pos _).le
    _ = (2 : ℝ) ^ (binade x + 1) := by
        rw [zpow_sub₀ (by norm_num : (2 : ℝ) ≠ 0), zpow_add₀ (by norm_num : (2 : ℝ) ≠ 0)]
        push_cast
        norm_num
        ring

theorem round32Pos_mono {x y : ℝ} (hx : 0 ≤ x) (h : x ≤ y) : round32Pos x ≤ round32Pos y := by
  rcases eq_or_lt_of_le hx with h0 | h0
  · have : round32Pos x = 0 := by
      rw [← h0]
      unfold round32Pos
      simp [roundEven_intCast, show roundEven (0 : ℝ) = 0 from by
        have := roundEven_intCast 0
        simpa using this]
    rw [this]
    exact round32Pos_nonneg (le_trans hx h)
  · have hb := binade_mono h0 h
    rcases eq_or_lt_of_le hb with heq | hlt
    · unfold round32Pos
      rw [heq]
      apply mul_le_mul_of_nonneg_right _ (two_zpow_pos _).le
      have := roundEven_mono (div_le_div_of_nonneg_right h (two_zpow_pos (binade y - 23)).le)
      exact_mod_cast this
    · have h1 := round32Pos_le_zpow x
      have h2 := round32Pos_ge_zpow (lt_of_lt_of_le h0 h) (by
        have : -126 ≤ binade x := le_max_right _ _
        omega)
      have h3 : (2 : ℝ) ^ (binade x + 1) ≤ 2 ^ binade y :=
        zpow_le_zpow_right₀ (by norm_num) (by omega)
      linarith


theorem round32Pos_zero : round32Pos 0 = 0 := by
  unfold round32Pos
  have := roundEven_intCast 0
  simp only [Int.cast_zero] at this
  simp [this]

theorem round32Pos_one : round32Pos 1 = 1 := by
  have hb : binade 1 = 0 := by
    unfold binade
    rw [Int.log_one_right]
    rfl
  unfold round32Pos
  rw [hb]
  have h1 : (1 : ℝ) / 2 ^ ((0 : Int) - 23) = ((2 ^ 23 : Int) : ℝ) := by
    rw [zpow_sub₀ (by norm_num : (2 : ℝ) ≠ 0)]
    push_cast
    norm_num
  rw [h1, roundEven_intCast, zpow_sub₀ (by norm_num : (2 : ℝ) ≠ 0)]
  push_cast
  norm_num

theorem round32Pos_rel {x : ℝ} (h0 : 1 / 2 ^ 100 ≤ x) :
    |round32Pos x - x| ≤ x / 2 ^ 24 := by
  have hx : 0 < x := lt_of_lt_of_le (by positivity) h0
  have hlog : (-100 : Int) ≤ Int.log 2 x := by
    rw [← Int.zpow_le_iff_le_log (by norm_num) hx]
    refine le_trans (le_of_eq ?_) h0
    rw [Nat.cast_ofNat, zpow_neg, one_div]
    norm_cast
  have hb : -126 < binade x := by
    unfold binade
    omega
  have hle := zpow_binade_le hx hb
  have hu := two_zpow_pos (binade x - 23)
  have hnear := roundEven_near (x / 2 ^ (binade x - 23))
  have hscale : (2 : ℝ) ^ (binade x - 23) = 2 ^ binade x / 2 ^ 23 := by
    rw [zpow_sub₀ (by norm_num : (2 : ℝ) ≠ 0)]
    norm_cast
  unfold round32Pos
  have heq : (roundEven (x / 2 ^ (binade x - 23)) : ℝ) * 2 ^ (binade x - 23) - x
      = ((roundEven (x / 2 ^ (binade x - 23)) : ℝ) - x / 2 ^ (binade x - 23))
          * 2 ^ (binade x - 23) := by
    field_simp
  rw [heq, abs_mul, abs_of_pos hu]
  calc |(roundEven (x / 2 ^ (binade x - 23)) : ℝ) - x / 2 ^ (binade x - 23)|
        * 2 ^ (binade x - 23)
      ≤ 1 / 2 * 2 ^ (binade x - 23) := mul_le_mul_of_nonneg_right hnear hu.le
    _ = 2 ^ binade x / 2 ^ 24 := by rw [hscale]; ring
    _ ≤ x / 2 ^ 24 := div_le_div_of_nonneg_right hle (by positivity)

theorem round32_mono : Monotone round32 := by
  intro x y h
  unfold round32
  split_ifs with hx hy hy
  · exact round32Pos_mono hx h
  · exact absurd (le_trans hx h) hy
  · have h1 := round32Pos_nonneg (by linarith : (0 : ℝ) ≤ -x)
    have h2 := round32Pos_nonneg hy
    linarith
  · have := round32Pos_mono (by linarith : (0 : ℝ) ≤ -y) (by linarith : -y ≤ -x)
    linarith

theorem isRounding_round32 : IsRounding round32 where
  mono := round32_mono
  zero := by
    unfold round32
    rw [if_pos (le_refl _)]
    exact round32Pos_zero
  one := by
    unfold round32
    rw [if_pos (by norm_num)]
    exact round32Pos_one
  rel := by
    intro x h0 _
    unfold round32
    split_ifs with hx
    · rw [abs_of_nonneg hx] at h0 ⊢
      exact round32Pos_rel h0
    · have hneg : x < 0 := not_le.1 hx
      rw [abs_of_neg hneg] at h0 ⊢
      have := round32Pos_rel h0
      rw [show -round32Pos (-x) - x = -(round32Pos (-x) - -x) from by ring, abs_neg]
      exact this

/-- Exact arithmetic is the rounded arithmetic of the identity rounding. -/
theorem isRounding_id : IsRounding (fun x : ℝ => x) where
  mono := fun _ _ h => h
  zero := rfl
  one := rfl
  rel := by
    intro x _ _
    simp only [sub_self, abs_zero]
    positivity

theorem binade_eq (x : ℝ) (k : Int) (hk : -126 ≤ k) (h1 : (2 : ℝ) ^ k ≤ x)
    (h2 : x < (2 : ℝ) ^ (k + 1)) : binade x = k := by
  have hx : 0 < x := lt_of_lt_of_le (two_zpow_pos k) h1
  have ha : k ≤ Int.log 2 x := by
    rw [← Int.zpow_le_iff_le_log (by norm_num) hx, Nat.cast_ofNat]
    exact h1
  have hb : Int.log 2 x < k + 1 := by
    rw [← Int.lt_zpow_iff_log_lt (by norm_num) hx, Nat.cast_ofNat]
    exact h2
  unfold binade
  omega

theorem roundEven_eq_of_near (y : ℝ) (n : Int) (h1 : (n : ℝ) - 1 / 2 < y)
    (h2 : y < (n : ℝ) + 1 / 2) : roundEven y = n := by
  have hnear := roundEven_near y
  rw [abs_le] at hnear
  have ha : ((roundEven y : Int) : ℝ) < ((n + 1 : Int) : ℝ) := by push_cast; linarith
  have hb : ((n - 1 : Int) : ℝ) < ((roundEven y : Int) : ℝ) := by push_cast; linarith
  have ha' : roundEven y < n + 1 := by exact_mod_cast ha
  have hb' : n - 1 < roundEven y := by exact_mod_cast hb
  omega

/-- The binary32 value of the literal `1.4f`. -/
theorem round32_literal : round32 1.4 = 11744051 / 8388608 := by
  have hb : binade 1.4 = 0 := binade_eq _ 0 (by norm_num) (by norm_num) (by norm_num)
  unfold round32
  rw [if_pos (by norm_num)]
  unfold round32Pos
  rw [hb, roundEven_eq_of_near _ 11744051]
  · rw [zpow_sub₀ (by norm_num : (2 : ℝ) ≠ 0)]
    norm_num
  · rw [zpow_sub₀ (by norm_num : (2 : ℝ) ≠ 0)]
    norm_num
  · rw [zpow_sub₀ (by norm_num : (2 : ℝ) ≠ 0)]
    norm_num


theorem generateHeightMap_low_noise (hr : IsRounding rnd) (T x z : Nat) :
    generateHeightMap (roundedOps rnd) (fun _ _ => (⟨-1⟩ : Rounded rnd)) T x z = 0 := by
  rw [generateHeightMap_rounded]
  have h1 : (noiseValue (fun _ _ => (⟨-1⟩ : Rounded rnd)) x z).val = -1 := rfl
  rw [h1, rnd_one_lit hr]
  simp [hr.zero]

theorem normCoord_le_half (hr : IsRounding rnd) (T x : Nat) (hT : 8 ≤ T) (hT2 : T < 2 ^ 31)
    (hx : x < T) : |(normCoord T x : Rounded rnd).val| ≤ 501 / 1000 := by
  rw [normCoord_val]
  obtain ⟨hB1, hB2, h8⟩ := rnd_natCast_bounds hr T hT hT2
  have h31 : (T : ℝ) ≤ 2 ^ 31 := by exact_mod_cast hT2.le
  set a : Int := (x : Int) - ((T / 2 : Nat) : Int) with ha
  have h1 : -(T : Int) ≤ 2 * a := by omega
  have h2 : 2 * a ≤ (T : Int) := by omega
  have ha1 : |(a : ℝ)| ≤ (T : ℝ) / 2 := by
    have h1' : -(T : ℝ) ≤ 2 * (a : ℝ) := by exact_mod_cast h1
    have h2' : 2 * (a : ℝ) ≤ (T : ℝ) := by exact_mod_cast h2
    rw [abs_le]
    constructor <;> linarith
  have hA := rnd_abs_le hr (by linarith : (1 : ℝ) / 2 ^ 100 ≤ (T : ℝ) / 2)
    (by linarith : (T : ℝ) / 2 ≤ 2 ^ 100) ha1
  have hB : (0 : ℝ) < rnd (T : ℝ) := by
    have : (0 : ℝ) < (T : ℝ) - T / 2 ^ 24 := by linarith
    linarith
  have hq : |rnd (a : ℝ) / rnd (T : ℝ)| ≤ (50001 : ℝ) / 100000 := by
    rw [abs_div, abs_of_pos hB, div_le_iff₀ hB]
    linarith
  have := rnd_abs_le hr (by norm_num) (by norm_num) hq
  refine le_trans this ?_
  norm_num

theorem dist_edge_le (hr : IsRounding rnd) (u : ℝ) (hu : |u| ≤ 501 / 1000) :
    rnd (rnd (Real.sqrt (rnd (rnd (u * u) + rnd ((0 : ℝ) * 0)))) * rnd 1.4) ≤ 71 / 100 := by
  have h1 : u * u ≤ (251001 : ℝ) / 1000000 := by
    rw [← abs_mul_abs_self u]
    nlinarith [abs_nonneg u]
  have h2 : rnd (u * u) ≤ (2511 : ℝ) / 10000 := by
    refine le_trans (rnd_le_of_le hr (by norm_num) (by norm_num) h1) ?_
    norm_num
  have hS : rnd (rnd (u * u) + rnd ((0 : ℝ) * 0)) ≤ (2512 : ℝ) / 10000 := by
    rw [mul_zero, hr.zero, add_zero]
    refine le_trans (rnd_le_of_le hr (by norm_num) (by norm_num) h2) ?_
    norm_num
  have hsqrt : Real.sqrt (rnd (rnd (u * u) + rnd ((0 : ℝ) * 0))) ≤ (5012 : ℝ) / 10000 := by
    rw [Real.sqrt_le_left (by norm_num)]
    refine le_trans hS ?_
    norm_num
  have hq : rnd (Real.sqrt (rnd (rnd (u * u) + rnd ((0 : ℝ) * 0)))) ≤ (5013 : ℝ) / 10000 := by
    refine le_trans (rnd_le_of_le hr (by norm_num) (by norm_num) hsqrt) ?_
    norm_num
  have hq0 : 0 ≤ rnd (Real.sqrt (rnd (rnd (u * u) + rnd ((0 : ℝ) * 0)))) :=
    rnd_nonneg hr (Real.sqrt_nonneg _)
  have hl := rnd_lit_bounds hr
  have hp : rnd (Real.sqrt (rnd (rnd (u * u) + rnd ((0 : ℝ) * 0)))) * rnd 1.4
      ≤ (702 : ℝ) / 1000 := by
    nlinarith
  refine le_trans (rnd_le_of_le hr (by norm_num) (by norm_num) hp) ?_
  norm_num

theorem heightVal_ge_one (hr : IsRounding rnd) (n d : ℝ) (hn : 0 ≤ n) (hd : d ≤ 71 / 100) :
    1 ≤ max 0 ⌊rnd (rnd (rnd (n + rnd 1.0) * rnd 30.0) * rnd (rnd 1.0 - d))⌋ := by
  rw [rnd_one_lit hr]
  have hb : 1 ≤ rnd (n + 1) := by
    have := hr.mono (by linarith : (1 : ℝ) ≤ n + 1)
    rwa [hr.one] at this
  have h30 := (rnd_thirty_bounds hr).1
  have ha : (299 : ℝ) / 10 ≤ rnd (rnd (n + 1) * rnd 30.0) := by
    have hp : (2999 : ℝ) / 100 ≤ rnd (n + 1) * rnd 30.0 := by nlinarith
    refine le_trans ?_ (rnd_ge_of_ge hr (by norm_num) (by norm_num) hp)
    norm_num
  have hf : (289 : ℝ) / 1000 ≤ rnd (1 - d) := by
    refine le_trans ?_ (rnd_ge_of_ge hr (by norm_num) (by norm_num)
      (by linarith : (29 : ℝ) / 100 ≤ 1 - d))
    norm_num
  have hh : (8 : ℝ) ≤ rnd (rnd (rnd (n + 1) * rnd 30.0) * rnd (1 - d)) := by
    have hp : (86 : ℝ) / 10 ≤ rnd (rnd (n + 1) * rnd 30.0) * rnd (1 - d) := by nlinarith
    refine le_trans ?_ (rnd_ge_of_ge hr (by norm_num) (by norm_num) hp)
    norm_num
  have : (8 : Int) ≤ ⌊rnd (rnd (rnd (n + 1) * rnd 30.0) * rnd (1 - d))⌋ :=
    Int.le_floor.2 (by exact_mod_cast hh)
  omega

theorem centre_column_height (hr : IsRounding rnd)
    (noise : Rounded rnd → Rounded rnd → Rounded rnd) (T : Nat)
    (h : 0 ≤ (noiseValue noise (T / 2) (T / 2)).val) :
    1 ≤ generateHeightMap (roundedOps rnd) noise T (T / 2) (T / 2) := by
  rw [generateHeightMap_rounded, dist_centre_column hr]
  exact heightVal_ge_one hr _ _ h (by norm_num)


theorem height_zero_of_noise (hr : IsRounding rnd)
    (noise : Rounded rnd → Rounded rnd → Rounded rnd) (T x z : Nat)
    (h : (noiseValue noise x z).val = -1) :
    generateHeightMap (roundedOps rnd) noise T x z = 0 := by
  rw [generateHeightMap_rounded, h, rnd_one_lit hr]
  simp [hr.zero]

theorem meanHeight_zero (hm : HeightMap) (l : List (Nat × Nat))
    (h : ∀ p ∈ l, hm p.1 p.2 = 0) : meanHeight hm l = 0 := by
  unfold meanHeight
  have hs : (l.map (fun p => hm p.1 p.2)).sum = 0 := by
    apply List.sum_eq_zero
    intro v hv
    rw [List.mem_map] at hv
    obtain ⟨p, hp, rfl⟩ := hv
    exact h p hp
  rw [hs]
  simp

theorem sample_val (x : Nat) :
    (((x : Int) : Rounded rnd) * 3.0).val = rnd (rnd (x : ℝ) * rnd 3.0) := by
  show rnd (rnd (((x : Int) : ℝ)) * rnd 3.0) = _
  rw [Int.cast_natCast]

theorem rnd_three_bounds (hr : IsRounding rnd) :
    (2999 : ℝ) / 1000 ≤ rnd 3.0 ∧ rnd 3.0 ≤ (3001 : ℝ) / 1000 := by
  have := rnd_near hr (by norm_num : (1 : ℝ) / 2 ^ 100 ≤ 3.0) (by norm_num)
  constructor
  · refine le_trans ?_ this.1; norm_num
  · refine le_trans this.2 ?_; norm_num

theorem sample_mid (hr : IsRounding rnd) (x : Nat) (h3 : 3 ≤ x) (h5 : x ≤ 5) :
    3 ≤ (((x : Int) : Rounded rnd) * 3.0).val ∧ (((x : Int) : Rounded rnd) * 3.0).val ≤ 18 := by
  rw [sample_val]
  have h3' : (3 : ℝ) ≤ x := by exact_mod_cast h3
  have h5' : (x : ℝ) ≤ 5 := by exact_mod_cast h5
  have hlo := rnd_ge_of_ge hr (by norm_num) (by norm_num) h3'
  have hhi := rnd_le_of_le hr (by norm_num) (by norm_num) h5'
  have ht := rnd_three_bounds hr
  norm_num at hlo hhi
  constructor
  · have hp : (8 : ℝ) ≤ rnd (x : ℝ) * rnd 3.0 := by nlinarith
    have := rnd_ge_of_ge hr (by norm_num) (by norm_num) hp
    norm_num at this
    linarith
  · have hp : rnd (x : ℝ) * rnd 3.0 ≤ 16 := by nlinarith
    have := rnd_le_of_le hr (by norm_num) (by norm_num) hp
    norm_num at this
    linarith

theorem sample_far (hr : IsRounding rnd) :
    18 < ((((7 : Nat) : Int) : Rounded rnd) * 3.0).val := by
  rw [sample_val]
  have hlo := rnd_ge_of_ge hr (by norm_num) (by norm_num) (le_refl (7 : ℝ))
  have ht := rnd_three_bounds hr
  norm_num at hlo
  have hp : (20 : ℝ) ≤ rnd ((7 : Nat) : ℝ) * rnd 3.0 := by
    push_cast
    nlinarith
  have := rnd_ge_of_ge hr (by norm_num) (by norm_num) hp
  norm_num at this
  linarith

theorem borderNoise_centre (hr : IsRounding rnd) (p : Nat × Nat) (hp : p ∈ centreColumns 8) :
    (noiseValue (borderNoise rnd) p.1 p.2).val = -1 := by
  obtain ⟨h1, h2⟩ := mem_centreColumns 8 p hp
  have a := sample_mid hr p.1 (by omega) (by omega)
  have b := sample_mid hr p.2 (by omega) (by omega)
  unfold noiseValue borderNoise
  rw [if_pos ⟨a.1, a.2, b.1, b.2⟩]

theorem borderNoise_edge (hr : IsRounding rnd) :
    (noiseValue (borderNoise rnd) 7 4).val = 1 := by
  have a := sample_far hr
  unfold noiseValue borderNoise
  rw [if_neg]
  intro h
  linarith [h.2.1]

theorem borderNoise_bounds (p q : Rounded rnd) :
    -1 ≤ (borderNoise rnd p q).val ∧ (borderNoise rnd p q).val ≤ 1 := by
  unfold borderNoise
  split_ifs <;> norm_num

theorem borderNoise_means (hr : IsRounding rnd) :
    meanHeight (generateHeightMap (roundedOps rnd) (borderNoise rnd) 8) (centreColumns 8) = 0
      ∧ 0 < meanHeight (generateHeightMap (roundedOps rnd) (borderNoise rnd) 8) (ringColumns 8) := by
  constructor
  · apply meanHeight_zero
    intro p hp
    exact height_zero_of_noise hr _ 8 p.1 p.2 (borderNoise_centre hr p hp)
  · have h74 : ((7, 4) : Nat × Nat) ∈ ringColumns 8 := by decide
    have := meanHeight_gt (generateHeightMap (roundedOps rnd) (borderNoise rnd) 8)
      (ringColumns 8) 0 (7, 4) h74 (fun c _ => le_max_left _ _) (by
        have hd : (distFromCenter (roundedOps rnd) 8 7 4).val ≤ 71 / 100 := by
          rw [distFromCenter_val]
          have hz : (normCoord 8 4 : Rounded rnd).val = 0 := normCoord_centre_column hr 8
          rw [hz]
          exact dist_edge_le hr _ (normCoord_le_half hr 8 7 (by norm_num) (by norm_num)
            (by norm_num))
        have hge := heightVal_ge_one hr (noiseValue (borderNoise rnd) 7 4).val _
          (by rw [borderNoise_edge hr]; norm_num) hd
        rw [← generateHeightMap_rounded] at hge
        show 0 < generateHeightMap (roundedOps rnd) (borderNoise rnd) 8 7 4
        omega)
    exact_mod_cast this

/-! ## Properties of the generator -/

/-- C5 (height non-negativity): whatever the number type, the square root, the
cast to `int` and the noise function are and return, every generated entry
`heightMap[x][z] = max(0, (int)height)` is non-negative. -/
theorem height_nonneg {α : Type} [Add α] [Sub α] [Mul α] [Div α] [IntCast α] [OfScientific α]
    (ops : FloatOps α) (noise : α → α → α) (T x z : Nat) :
    0 ≤ generateHeightMap ops noise T x z :=
  le_max_left _ _

/-- C7 as stated fails, in `float` arithmetic, for `TERRAIN_SIZE = 8` and two
noise functions with values in `[-1, 1]`.  With the constant noise `-1` every
generated height is `0` and both means are `0`.  With `borderNoise`, which is
`-1` on the centre block and `1` on the ring, the mean over the centre 3x3
block is `0` and the mean over the outermost ring is positive. -/
theorem centre_bias_fails :
    ((∀ p q : Rounded round32, -1 ≤ ((fun _ _ => ⟨-1⟩ : Rounded round32 → Rounded round32
          → Rounded round32) p q).val
        ∧ ((fun _ _ => ⟨-1⟩ : Rounded round32 → Rounded round32 → Rounded round32) p q).val ≤ 1)
      ∧ meanHeight (generateHeightMap (roundedOps round32) (fun _ _ => ⟨-1⟩) 8) (ringColumns 8) = 0
      ∧ meanHeight (generateHeightMap (roundedOps round32) (fun _ _ => ⟨-1⟩) 8) (centreColumns 8)
          = 0
      ∧ ¬ (meanHeight (generateHeightMap (roundedOps round32) (fun _ _ => ⟨-1⟩) 8) (ringColumns 8)
          < meanHeight (generateHeightMap (roundedOps round32) (fun _ _ => ⟨-1⟩) 8)
              (centreColumns 8)))
    ∧ ((∀ p q : Rounded round32, -1 ≤ (borderNoise round32 p q).val
          ∧ (borderNoise round32 p q).val ≤ 1)
      ∧ meanHeight (generateHeightMap (roundedOps round32) (borderNoise round32) 8)
          (centreColumns 8) = 0
      ∧ 0 < meanHeight (generateHeightMap (roundedOps round32) (borderNoise round32) 8)
          (ringColumns 8)
      ∧ ¬ (meanHeight (generateHeightMap (roundedOps round32) (borderNoise round32) 8)
            (ringColumns 8)
          < meanHeight (generateHeightMap (roundedOps round32) (borderNoise round32) 8)
              (centreColumns 8))) := by
  have hr := isRounding_round32
  have hz : generateHeightMap (roundedOps round32) (fun _ _ => ⟨-1⟩) 8 = fun _ _ => 0 := by
    funext x z
    exact generateHeightMap_low_noise hr 8 x z
  have hb := borderNoise_means hr
  refine ⟨⟨fun _ _ => by norm_num, ?_, ?_, ?_⟩, ⟨borderNoise_bounds, hb.1, hb.2, ?_⟩⟩
  · rw [hz]; exact meanHeight_zero _ _ (fun _ _ => rfl)
  · rw [hz]; exact meanHeight_zero _ _ (fun _ _ => rfl)
  · rw [hz, meanHeight_zero _ (ringColumns 8) (fun _ _ => rfl),
      meanHeight_zero _ (centreColumns 8) (fun _ _ => rfl)]
    exact lt_irrefl _
  · rw [hb.1]
    exact not_lt.2 hb.2.le

/-- C7 amended (centre-biased falloff when the noise does not favour the ring):
in rounded arithmetic with any rounding that is monotone, keeps `0` and `1`
and has relative error at most `2^-24` (binary32 `float`, and exact
arithmetic), for `8 ≤ TERRAIN_SIZE < 2^31` and a noise function with values in
`[-1, 1]` whose value at every column of the outermost ring is at most its
value at every column of the centre 3x3 block, if the centre column
`(T/2, T/2)` has generated height at least `1`, then the mean generated height
over the outermost ring is strictly less than the mean over the centre 3x3
block. -/
theorem centre_bias_rounded (rnd : ℝ → ℝ) (hr : IsRounding rnd) (T : Nat)
    (noise : Rounded rnd → Rounded rnd → Rounded rnd) (hT : 8 ≤ T) (hT2 : T < 2 ^ 31)
    (hn : ∀ p q, -1 ≤ (noise p q).val ∧ (noise p q).val ≤ 1)
    (hord : ∀ r ∈ ringColumns T, ∀ c ∈ centreColumns T,
      (noiseValue noise r.1 r.2).val ≤ (noiseValue noise c.1 c.2).val)
    (hc : 1 ≤ generateHeightMap (roundedOps rnd) noise T (T / 2) (T / 2)) :
    meanHeight (generateHeightMap (roundedOps rnd) noise T) (ringColumns T)
      < meanHeight (generateHeightMap (roundedOps rnd) noise T) (centreColumns T) := by
  apply mean_lt_of_heights _ _ _ (T / 2, T / 2) (ringColumns_ne_nil T (by omega))
    (centre_column_mem T)
  · intro r hr1 c hc1
    rw [generateHeightMap_rounded, generateHeightMap_rounded]
    apply max_le_max (le_refl _)
    apply Int.floor_mono
    exact heightVal_le_heightVal hr _ _ _ _ (hord r hr1 c hc1) (hn _ _).1 (hn _ _).2
      (dist_ring_rounded hr T hT hT2 r hr1) (dist_centre_rounded hr T hT hT2 c hc1)
  · intro r hr1
    rw [generateHeightMap_rounded] at hc
    rw [generateHeightMap_rounded, generateHeightMap_rounded]
    simp only [dist_centre_column hr] at hc ⊢
    exact heightVal_ring_lt hr _ _ _ (hord r hr1 _ (centre_column_mem T)) (hn _ _).1 (hn _ _).2
      (dist_ring_rounded hr T hT hT2 r hr1) hc

/-- Instance of the amended C7 in `float` arithmetic: `TERRAIN_SIZE = 8` and
the constant noise `1`. -/
theorem centre_bias_rounded_witness :
    IsRounding round32
      ∧ (1 ≤ generateHeightMap (roundedOps round32) (fun _ _ => ⟨1⟩) 8 (8 / 2) (8 / 2))
      ∧ meanHeight (generateHeightMap (roundedOps round32) (fun _ _ => ⟨1⟩) 8) (ringColumns 8)
          < meanHeight (generateHeightMap (roundedOps round32) (fun _ _ => ⟨1⟩) 8)
              (centreColumns 8) :=
  have hc : 1 ≤ generateHeightMap (roundedOps round32) (fun _ _ => ⟨1⟩) 8 (8 / 2) (8 / 2) :=
    centre_column_height isRounding_round32 _ 8 (by
      show (0 : ℝ) ≤ 1
      norm_num)
  ⟨isRounding_round32, hc,
   centre_bias_rounded round32 isRounding_round32 8 (fun _ _ => ⟨1⟩) (by norm_num) (by norm_num)
     (fun _ _ => ⟨by norm_num, by norm_num⟩) (fun _ _ _ _ => le_refl _) hc⟩

/-- C9 as stated fails: in exact real arithmetic there is no `TERRAIN_SIZE ≥ 1`
and no grid coordinate at which the falloff factor `1 - distFromCenter` is
negative. -/
theorem falloff_never_negative :
    ¬ ∃ T x z : Nat, 1 ≤ T ∧ x < T ∧ z < T ∧ 1 - distFromCenter realOps T x z < 0 := by
  rintro ⟨T, x, z, -, hx, hz, h⟩
  have := distFromCenter_le T x z hx hz
  linarith

/-- C9 amended (falloff stays positive): in exact real arithmetic, for every
`TERRAIN_SIZE` and every grid coordinate `(x, z)` the falloff factor
`1 - distFromCenter` is at least `0.01`; the normalized coordinates are at most
`1/2` in absolute value, so `distFromCenter ≤ 1.4 * sqrt(1/2) < 0.99`. -/
theorem falloff_positive (T x z : Nat) (hx : x < T) (hz : z < T) :
    1 / 100 ≤ 1 - distFromCenter realOps T x z := by
  have := distFromCenter_le T x z hx hz
  linarith

/-- Instance of the amended C9 at the corner `(0, 0)` of the 64x64 grid. -/
theorem falloff_positive_witness :
    (0 < 64) ∧ (1 : ℝ) / 100 ≤ 1 - distFromCenter realOps 64 0 0 :=
  ⟨by decide, falloff_positive 64 0 0 (by decide) (by decide)⟩

end Mountains
